import Mathlib

/-!
# Verification of the coarsening engine of `graph-reduction-communicability`

This file gives a shallow embedding of the core coarsening engine
(`src/graph_reduction/core/coarseners.py`, class `CoarseNetCoarsener`) and of
the module-import structure of the package, and proves/refutes the
specification claims about them.

Modelling conventions:
* Python floats are modelled as `ℚ` (exact rationals); the external iterative
  eigensolver (`scipy.sparse.linalg.eigs`) is modelled as an oracle parameter,
  since its output is not computed by this repository.  The dense ≤2-node
  branch of `_calculate_eigensystem` is computed exactly (the adjacency matrix
  is binary of size ≤ 2).
* NetworkX graphs are modelled as a node list (insertion order) plus an edge
  list (each undirected edge stored once, insertion order).
* Python node identifiers: callers of this repository use integer node labels;
  merged supernodes are tuples.  `NodeId.orig n` models the int `n`,
  `NodeId.pair a b` models the 2-tuple `(a, b)` created by `_contract_pair`,
  and `NodeId.flat [n1, ..., nk]` models the flat int tuple created by
  `coarsen_with_intermediate_checkpoints_old`.
* Python exceptions that the code can actually raise are modelled with
  `Except String`; the raised exception class name is the error string.
-/

unseal Rat.add Rat.mul Rat.sub Rat.inv

namespace GraphRed

/-- Decidable equality for `Except` results (used to state concrete runs). -/
instance {ε α : Type} [DecidableEq ε] [DecidableEq α] :
    DecidableEq (Except ε α) := fun a b =>
  match a, b with
  | .error x, .error y =>
    if h : x = y then isTrue (by rw [h])
    else isFalse (fun hc => h (by injection hc))
  | .error _, .ok _ => isFalse (fun hc => Except.noConfusion hc)
  | .ok _, .error _ => isFalse (fun hc => Except.noConfusion hc)
  | .ok x, .ok y =>
    if h : x = y then isTrue (by rw [h])
    else isFalse (fun hc => h (by injection hc))

/-- A Python node identifier: an original `int` label, a nested 2-tuple of
identifiers (as created by `_contract_pair`: `new_node = (a, b)`), or a flat
tuple of `int`s (as created by the checkpointed loop:
`tuple(sorted(list(combined_originals)))`).

Note: a Python 2-tuple of two ints could be written either way; within one
coarsening run only one of the two constructors is ever produced, and no
theorem below identifies or distinguishes a `pair` of two `orig`s from a
two-element `flat`. -/
inductive NodeId where
  | orig : Int → NodeId
  | pair : NodeId → NodeId → NodeId
  | flat : List Int → NodeId
deriving DecidableEq, Repr

/-- Sorted-duplicate-free insertion.  Python `set`s of int labels are
represented throughout by their canonical strictly-sorted element list (the
list `sorted(list(s))` would produce). -/
def setInsert (i : Int) : List Int → List Int
  | [] => [i]
  | j :: js =>
    if i < j then i :: j :: js
    else if i = j then j :: js
    else j :: setInsert i js

/-- Set union (`originals_a | originals_b`) on canonical sorted lists. -/
def setUnion (a b : List Int) : List Int :=
  b.foldl (fun acc j => setInsert j acc) a

/-- The set of original `int` labels occurring inside an identifier, as a
canonical sorted list. -/
def NodeId.support : NodeId → List Int
  | .orig n => [n]
  | .pair a b => setUnion a.support b.support
  | .flat l => l

/-- Whether an identifier is an original `int` label. -/
def NodeId.isOrig : NodeId → Bool
  | .orig _ => true
  | _ => false

/-- A NetworkX-style simple undirected graph: node list in insertion order and
edge list in insertion order, each undirected edge stored once. -/
structure Graph where
  nodes : List NodeId
  edges : List (NodeId × NodeId)
deriving DecidableEq, Repr

/-- `G.has_edge(u, v)` (in either orientation). -/
def Graph.hasEdge (g : Graph) (u v : NodeId) : Bool :=
  g.edges.any (fun e => (e.1 = u ∧ e.2 = v) ∨ (e.1 = v ∧ e.2 = u))

/-- `G.add_node(x)`: appended to the node list if absent. -/
def Graph.addNode (g : Graph) (x : NodeId) : Graph :=
  if x ∈ g.nodes then g else { g with nodes := g.nodes ++ [x] }

/-- `G.add_edge(u, v)`: missing endpoints are added as nodes; the edge is
appended once (re-adding an existing edge changes nothing observable here). -/
def Graph.addEdge (g : Graph) (u v : NodeId) : Graph :=
  if g.hasEdge u v then g
  else
    let g1 := (g.addNode u).addNode v
    { g1 with edges := g1.edges ++ [(u, v)] }

/-- `G.remove_node(x)`: drops the node and all incident edges. -/
def Graph.removeNode (g : Graph) (x : NodeId) : Graph :=
  { nodes := g.nodes.filter (· ≠ x),
    edges := g.edges.filter (fun e => e.1 ≠ x ∧ e.2 ≠ x) }

/-- `list(G.neighbors(x))` (each stored edge contributes its other endpoint). -/
def Graph.neighborsOf (g : Graph) (x : NodeId) : List NodeId :=
  g.edges.filterMap (fun e =>
    if e.1 = x then some e.2 else if e.2 = x then some e.1 else none)

/-- `_sanitize_graph`: a fresh graph with the same nodes, the edges stripped of
duplicates, edge weights uniformly 1 (weights carry no information here), and
self-loops removed afterwards. -/
def sanitize (G : Graph) : Graph :=
  let H := G.nodes.foldl Graph.addNode ⟨[], []⟩
  let H := G.edges.foldl (fun h e => h.addEdge e.1 e.2) H
  { H with edges := H.edges.filter (fun e => e.1 ≠ e.2) }

/-- Output of `_calculate_eigensystem` when it does not fail: the dominant
eigenvalue λ and the right/left eigenvector entry lists `u`, `v` (in
`nodelist` order; empty lists on the dense ≤2-node branch). -/
abbrev EigSys := ℚ × List ℚ × List ℚ

/-- `_calculate_eigensystem`.  For `0 < n ≤ 2` the dense branch computes the
largest real eigenvalue of the binary adjacency matrix exactly (`1` iff the two
nodes are joined, else `0`) and returns empty eigenvector arrays.  For `n = 0`
`eigs` raises (`k=1` is not `< N=0`), which the code catches, returning `None`.
For `n > 2` the result of the external iterative solver is the `oracle`
argument (`none` models solver failure). -/
def calculateEigensystem (g : Graph) (oracle : Option EigSys) : Option EigSys :=
  let n := g.nodes.length
  if n = 0 then none
  else if n ≤ 2 then some (if g.edges.isEmpty then 0 else 1, [], [])
  else oracle

/-- `v.T @ u` (dot product; `0.0` for empty arrays). -/
def dotQ (v u : List ℚ) : ℚ :=
  ((v.zip u).map (fun p => p.1 * p.2)).sum

/-- `tuple(sorted((a_node, b_node)))` for two original int labels (the scoring
loop only ever sorts original labels). -/
def pySortPair (a b : NodeId) : NodeId × NodeId :=
  match a, b with
  | .orig x, .orig y => if x ≤ y then (a, b) else (b, a)
  | _, _ => (a, b)

/-- `node_to_idx[p]` via position in `nodelist`. -/
def idxOf (nodelist : List NodeId) (x : NodeId) : Option Nat :=
  nodelist.findIdx? (· = x)

/-- The per-pair numerator/denominator computation of the scoring loop, on an
already-sorted pair.  A missing index is a `KeyError` (`node_to_idx[...]`), an
out-of-range eigenvector access is an `IndexError` (`u[idx_a]` on an empty
array — reachable, see claim C9). -/
def scorePair (nodelist : List NodeId) (lam : ℚ) (u v : List ℚ) (vdotu : ℚ)
    (p : NodeId × NodeId) : Except String (ℚ × ℚ) :=
  match idxOf nodelist p.1, idxOf nodelist p.2 with
  | some ia, some ib =>
    match u.get? ia, u.get? ib, v.get? ia, v.get? ib with
    | some ua, some ub, some va, some vb =>
      let uTco := (lam * ua - ub) + (lam * ub - ua)
      let num := -lam * (ua * va + ub * vb) + va * uTco + ua * vb + ub * va
      let den := vdotu - (ua * va + ub * vb)
      .ok (num, den)
    | _, _, _, _ => .error "IndexError"
  | _, _ => .error "KeyError"

/-- The scoring loop (`for a_node, b_node in G_coarse.edges(): ...`): iterates
over the *edges* of the sanitized graph, emits `(score, pair)` with
`score = numerator / denominator` whenever `|denominator| > tolerance`, and
silently skips the pair otherwise. -/
def computeScores (edges : List (NodeId × NodeId)) (nodelist : List NodeId)
    (lam : ℚ) (u v : List ℚ) (vdotu tol : ℚ) :
    Except String (List (ℚ × (NodeId × NodeId))) :=
  match edges with
  | [] => .ok []
  | e :: es =>
    match scorePair nodelist lam u v vdotu (pySortPair e.1 e.2) with
    | .error msg => .error msg
    | .ok (num, den) =>
      match computeScores es nodelist lam u v vdotu tol with
      | .error msg => .error msg
      | .ok rest =>
        if |den| > tol then .ok ((num / den, pySortPair e.1 e.2) :: rest)
        else .ok rest

/-- Stable descending insertion: `x` goes in front of the first element with a
strictly smaller score and after all equal ones (the order produced by Python's
stable `sorted(..., reverse=True)`). -/
def insertDesc (x : ℚ × (NodeId × NodeId)) :
    List (ℚ × (NodeId × NodeId)) → List (ℚ × (NodeId × NodeId))
  | [] => [x]
  | y :: ys => if y.1 < x.1 then x :: y :: ys else y :: insertDesc x ys

/-- `sorted(scores, key=lambda x: x[0], reverse=True)`: stable sort by score,
descending. -/
def pySortDesc (l : List (ℚ × (NodeId × NodeId))) : List (ℚ × (NodeId × NodeId)) :=
  l.foldl (fun acc x => insertDesc x acc) []

/-- Stable ascending insertion for rationals. -/
def insertAsc (x : ℚ) : List ℚ → List ℚ
  | [] => [x]
  | y :: ys => if x < y then x :: y :: ys else y :: insertAsc x ys

/-- `sorted(...)` on a list of floats, ascending. -/
def pySortAsc (l : List ℚ) : List ℚ :=
  l.foldl (fun acc x => insertAsc x acc) []

/-- The floor of a rational (`num / den` rounded towards −∞; the denominator
is positive). -/
def ratFloor (q : ℚ) : Int := q.num.fdiv (q.den : Int)

/-- Python 3 `round` (banker's rounding: halves go to the even integer). -/
def pyRound (q : ℚ) : Int :=
  let f : Int := ratFloor q
  let r : ℚ := q - (f : ℚ)
  if r < 1/2 then f
  else if (1:ℚ)/2 < r then f + 1
  else if f % 2 = 0 then f else f + 1

/-- The eigensystem + scoring + sorting pass shared verbatim by `coarsen_old`
and `coarsen_with_intermediate_checkpoints_old`: `none` when
`_calculate_eigensystem` failed (`lambda_val is None`), otherwise the
(possibly raising) computation of the sorted task list. -/
def prepTasks (Gc : Graph) (oracle : Option EigSys) (tol : ℚ) :
    Option (Except String (List (ℚ × (NodeId × NodeId)))) :=
  match calculateEigensystem Gc oracle with
  | none => none
  | some (lam, u, v) =>
    let vdotu := dotQ v u
    some ((computeScores Gc.edges Gc.nodes lam u v vdotu tol).map pySortDesc)

/-- The association list `supernode_to_originals` (a Python dict: insertion
order, unique keys) with member sets of original int labels (canonical sorted
lists). -/
abbrev Reg := List (NodeId × List Int)

/-- Dict lookup by key. -/
def regFind : Reg → NodeId → Option (List Int)
  | [], _ => none
  | p :: rest, k => if p.1 = k then some p.2 else regFind rest k

/-- `dict.pop(k)`'s removal effect (unique keys). -/
def regErase (reg : Reg) (k : NodeId) : Reg :=
  reg.filter (fun p => p.1 ≠ k)

/-- `dict[k] = v`: replace in place if the key exists, else append. -/
def regSet (reg : Reg) (k : NodeId) (v : List Int) : Reg :=
  if reg.any (fun p => p.1 = k) then
    reg.map (fun p => if p.1 = k then (k, v) else p)
  else reg ++ [(k, v)]

/-- `node_map[x]` for an element of a scored pair (always an original label). -/
def resolve (nmap : Int → NodeId) : NodeId → NodeId
  | .orig i => nmap i
  | x => x

/-- The in-place contraction shared by both merge loops: the new supernode's
neighbours are the union of the two old supernodes' neighbours minus the two
old supernodes themselves; the new node is added, wired, and the old nodes
removed. -/
def contract (g : Graph) (sa sb newId : NodeId) : Graph :=
  let alln := ((g.neighborsOf sa ++ g.neighborsOf sb).dedup).filter
    (fun x => x ≠ sa ∧ x ≠ sb)
  let g1 := g.addNode newId
  let g2 := alln.foldl (fun h nb => h.addEdge newId nb) g1
  (g2.removeNode sa).removeNode sb

/-- The mutable state of a merge loop: the working graph, the
`supernode_to_originals` registry, the `node_map` (on original int labels), the
contraction counter, the `unique_pairs` set, and (for the checkpointed variant)
the `results` dict. -/
structure LoopState where
  g : Graph
  reg : Reg
  nmap : Int → NodeId
  done : Int
  uniq : List (NodeId × NodeId)
  results : List (ℚ × Graph)

/-- The state at loop entry: identity partition (`{node: {node}}` and
`{node: node}`), counter 0, no pairs seen, no snapshots. -/
def initState (g : Graph) : LoopState :=
  { g := g,
    reg := g.nodes.map (fun x => (x, x.support)),
    nmap := fun i => .orig i,
    done := 0,
    uniq := [],
    results := [] }

/-- The merge proper, given the two (distinct) supernodes `sa`, `sb` of the
pair being contracted: pop both member sets, union them, build the new
identifier (`(super_a, super_b)` in the nested variant;
`tuple(sorted(list(combined_originals)))` in the flat variant — member sets
are kept as canonical sorted lists, so the sorted tuple is the union list
itself), rewire the graph, update registry, `node_map` and counter, and take
a checkpoint snapshot when the new count is a checkpoint count and the ratio
has no snapshot yet. -/
def mergeStep (flat : Bool) (ckpt : Int → Option ℚ) (st : LoopState)
    (sa sb : NodeId) : LoopState :=
  let Sa := (regFind st.reg sa).getD []
  let Sb := (regFind st.reg sb).getD []
  let combined := setUnion Sa Sb
  let newId : NodeId := if flat then .flat combined else .pair sa sb
  let g' := contract st.g sa sb newId
  let reg' := regSet (regErase (regErase st.reg sa) sb) newId combined
  let nmap' := fun i => if i ∈ combined then newId else st.nmap i
  let done' := st.done + 1
  let results' :=
    match ckpt done' with
    | some r =>
      if st.results.any (fun p => p.1 = r) then st.results
      else st.results ++ [(r, g')]
    | none => st.results
  { g := g', reg := reg', nmap := nmap', done := done', uniq := st.uniq,
    results := results' }

/-- One iteration of the merge loop, shared by `coarsen_old` (`flat = false`,
`ckpt = fun _ => none`) and `coarsen_with_intermediate_checkpoints_old`
(`flat = true`).  The `break` once `needed` contractions are done is modelled
by skipping every remaining task (identical effect on every observable).  A
skip still records the pair in `unique_pairs`, exactly as in the source. -/
def loopStep (flat : Bool) (needed : Int) (ckpt : Int → Option ℚ)
    (st : LoopState) (t : ℚ × (NodeId × NodeId)) : LoopState :=
  if needed ≤ st.done then st
  else if t.2 ∈ st.uniq then st
  else
    let st1 := { st with uniq := t.2 :: st.uniq }
    let sa := resolve st1.nmap t.2.1
    let sb := resolve st1.nmap t.2.2
    if sa = sb then st1
    else mergeStep flat ckpt st1 sa sb

/-- The merge loop over the sorted task list. -/
def runLoop (flat : Bool) (needed : Int) (ckpt : Int → Option ℚ)
    (st : LoopState) (tasks : List (ℚ × (NodeId × NodeId))) : LoopState :=
  tasks.foldl (loopStep flat needed ckpt) st

/-- The `ValueError` raised by `coarsen_old` for an out-of-range ratio. -/
def valueErrorMsg : String :=
  "ValueError: Reduction factor alpha must be between 0 and 1."

/-- `coarsen_old` (the implementation behind the public `coarsen` alias):
sanitize, validate `alpha`, short-circuit graphs with < 2 nodes, compute and
sort scores once, then greedily contract until
`n_original - int(round((1 - alpha) * n_original))` merges are done or the
task list is exhausted. -/
def coarsenOld (G : Graph) (alpha : ℚ) (oracle : Option EigSys) (tol : ℚ) :
    Except String Graph :=
  let Gc := sanitize G
  if ¬(0 < alpha ∧ alpha < 1) then .error valueErrorMsg
  else if Gc.nodes.length < 2 then .ok Gc
  else
    match prepTasks Gc oracle tol with
    | none => .ok Gc
    | some (.error msg) => .error msg
    | some (.ok tasks) =>
      let n : Int := Gc.nodes.length
      let target := pyRound ((1 - alpha) * (Gc.nodes.length : ℚ))
      let needed := n - target
      .ok (runLoop false needed (fun _ => none) (initState Gc) tasks).g

/-- `coarsen`: alias for `coarsen_old` (it does *not* call the checkpointed
form). -/
def coarsen (G : Graph) (alpha : ℚ) (oracle : Option EigSys) (tol : ℚ) :
    Except String Graph :=
  coarsenOld G alpha oracle tol

/-- The contraction count needed for ratio `r` on `n` original nodes:
`n_original - int(round((1 - r) * n_original))`. -/
def ckptCount (n : Nat) (r : ℚ) : Int :=
  (n : Int) - pyRound ((1 - r) * (n : ℚ))

/-- `contractions_to_checkpoint` as a function from a contraction count to the
ratio recorded for it: the dict comprehension
`{n - round((1-r)*n): r for r in ratios}` lets a later (larger) ratio
overwrite an earlier one at the same count. -/
def ckptLookup (n : Nat) (rs : List ℚ) (c : Int) : Option ℚ :=
  (rs.filter (fun r => ckptCount n r = c)).getLast?

/-- Dict lookup in the returned `results` mapping. -/
def resLookup : List (ℚ × Graph) → ℚ → Option Graph
  | [], _ => none
  | p :: rest, r => if p.1 = r then some p.2 else resLookup rest r

/-- `coarsen_with_intermediate_checkpoints_old`: sanitize, return `{}` for an
empty ratio list, dedupe + sort the ratios, run the shared scoring pass
(returning `{}` — the *empty* dict — on eigensolver failure), contract towards
the highest ratio snapshotting at each checkpoint count, and finally fall back
to the final working graph for the highest ratio only.  There is no ratio
validation. -/
def coarsenCkpt (G : Graph) (ratios : List ℚ) (oracle : Option EigSys)
    (tol : ℚ) : Except String (List (ℚ × Graph)) :=
  let Gs := sanitize G
  if ratios = [] then .ok []
  else
    let rs := pySortAsc ratios.dedup
    let highest := rs.getLastD 0
    match prepTasks Gs oracle tol with
    | none => .ok []
    | some (.error msg) => .error msg
    | some (.ok tasks) =>
      let n := Gs.nodes.length
      let finalTarget := pyRound ((1 - highest) * (n : ℚ))
      let needed := (n : Int) - finalTarget
      let st := runLoop true needed (ckptLookup n rs) (initState Gs) tasks
      .ok (if st.results.any (fun p => p.1 = highest) then st.results
           else st.results ++ [(highest, st.g)])

/-- `coarsen_with_intermediate_checkpoints`: alias for the `_old`
implementation. -/
def coarsenWithCheckpoints (G : Graph) (ratios : List ℚ)
    (oracle : Option EigSys) (tol : ℚ) : Except String (List (ℚ × Graph)) :=
  coarsenCkpt G ratios oracle tol

/-- The default `tolerance` of `CoarseNetCoarsener.__init__` (`1e-15`). -/
def defaultTol : ℚ := 1 / 10 ^ 15

/-! ## Predicates used to state the claims -/

/-- Callers of this engine (all experiment scripts in the repository) use
integer node labels: every node and edge endpoint is an original `int`. -/
def wfInput (G : Graph) : Prop :=
  (∀ x ∈ G.nodes, x.isOrig = true) ∧
  (∀ e ∈ G.edges, e.1.isOrig = true ∧ e.2.isOrig = true)

instance (G : Graph) : Decidable (wfInput G) := by
  unfold wfInput; infer_instance

/-- The original int labels of a graph's nodes, in node order. -/
def origLabels (g : Graph) : List Int :=
  g.nodes.filterMap (fun x => match x with | .orig i => some i | _ => none)

/-- The partition invariant of the claim: member sets of
`supernode_to_originals` are pairwise disjoint, their union is exactly the
full original node set, and `node_map` sends every original node to the
supernode whose member set contains it. -/
def PartitionInv (orig : List Int) (st : LoopState) : Prop :=
  st.reg.Pairwise (fun p q => ∀ i ∈ p.2, i ∉ q.2) ∧
  (∀ i ∈ orig, ∃ p ∈ st.reg, i ∈ p.2) ∧
  (∀ p ∈ st.reg, ∀ i ∈ p.2, i ∈ orig) ∧
  ∀ i ∈ orig, ∃ p ∈ st.reg, st.nmap i = p.1 ∧ i ∈ p.2

/-- Every task pair consists of two original labels drawn from the original
node set (true of the output of the scoring stage). -/
def TasksWf (orig : List Int) (tasks : List (ℚ × (NodeId × NodeId))) : Prop :=
  ∀ t ∈ tasks, ∃ i j : Int, t.2 = (.orig i, .orig j) ∧ i ∈ orig ∧ j ∈ orig

/-- The canonical identifier of a (canonically sorted) member set: the
original label itself for a singleton, the flat sorted tuple otherwise. -/
def canonId (S : List Int) : NodeId :=
  match S with
  | [i] => .orig i
  | l => .flat l

/-- The member set of the supernode an original label currently maps to. -/
def memOf (st : LoopState) (i : Int) : List Int :=
  (regFind st.reg (st.nmap i)).getD []

/-- Every registry key is the canonical identifier of its member set (the
naming discipline of the checkpointed merge loop). -/
def CanonKeys (st : LoopState) : Prop :=
  ∀ p ∈ st.reg, p.1 = canonId p.2

/-- The simulation relation between a nested-naming (`coarsen_old`) loop state
and a flat-naming (checkpointed) loop state: same progress, same seen-pair
set, same registry size, and the same member set for every original label. -/
def SimStates (orig : List Int) (st1 st2 : LoopState) : Prop :=
  st1.done = st2.done ∧ st1.uniq = st2.uniq ∧
  st1.reg.length = st2.reg.length ∧
  ∀ i ∈ orig, memOf st1 i = memOf st2 i

/-- The full internal invariant of a merge-loop state, relative to the set
`orig` of original labels: every registry value is the (canonically sorted,
non-empty) label support of its key, keys are distinct, member sets are
pairwise disjoint and cover exactly `orig`, `node_map` points into the
registry, the working graph's nodes are exactly the registry keys, and edges
join existing nodes. -/
structure RegInv (orig : List Int) (st : LoopState) : Prop where
  supp : ∀ p ∈ st.reg, p.1.support = p.2
  nonnil : ∀ p ∈ st.reg, p.2 ≠ []
  sorted : ∀ p ∈ st.reg, List.Sorted (· < ·) p.2
  keys : (st.reg.map Prod.fst).Nodup
  disj : st.reg.Pairwise (fun p q => ∀ i ∈ p.2, i ∉ q.2)
  coverA : ∀ i ∈ orig, ∃ p ∈ st.reg, i ∈ p.2
  coverB : ∀ p ∈ st.reg, ∀ i ∈ p.2, i ∈ orig
  maps : ∀ i ∈ orig, ∃ p ∈ st.reg, st.nmap i = p.1 ∧ i ∈ p.2
  gnodes : st.g.nodes = st.reg.map Prod.fst
  ewf : ∀ e ∈ st.g.edges, e.1 ∈ st.g.nodes ∧ e.2 ∈ st.g.nodes

/-- `ratios[-1]` after `sorted(list(set(ratios)))`: the highest requested
ratio. -/
def highestOf (rs : List ℚ) : ℚ :=
  (pySortAsc rs.dedup).getLastD 0

/-! ## Concrete inputs used in counterexamples and witnesses -/

/-- The 2-node path graph (nodes 0, 1, edge 0–1). -/
def pathGraph2 : Graph := ⟨[.orig 0, .orig 1], [(.orig 0, .orig 1)]⟩

/-- The 3-node path graph (edges 0–1, 1–2). -/
def pathGraph3 : Graph :=
  ⟨[.orig 0, .orig 1, .orig 2], [(.orig 0, .orig 1), (.orig 1, .orig 2)]⟩

/-- The 4-node path graph (edges 0–1, 1–2, 2–3). -/
def pathGraph4 : Graph :=
  ⟨[.orig 0, .orig 1, .orig 2, .orig 3],
   [(.orig 0, .orig 1), (.orig 1, .orig 2), (.orig 2, .orig 3)]⟩

/-- An eigensolver outcome on 4 nodes with constant eigenvectors: every edge
receives the same score, so the stable sort keeps edge order. -/
def onesEig4 : Option EigSys := some (2, [1, 1, 1, 1], [1, 1, 1, 1])

/-- An eigensolver outcome on 3 nodes with constant eigenvectors. -/
def onesEig3 : Option EigSys := some (2, [1, 1, 1], [1, 1, 1])

/-- An eigensolver outcome on 3 nodes under which edge (0,1) scores higher
than edge (1,2), so (0,1) is merged first. -/
def eig3A : Option EigSys := some (1, [3, 2, 1], [2, 3, 1])

/-- An eigensolver outcome on 3 nodes under which edge (1,2) scores higher
than edge (0,1), so (1,2) is merged first. -/
def eig3B : Option EigSys := some (1, [1, 2, 3], [1, 3, 2])

/-- The candidate list produced on the sanitized 3-node path under `onesEig3`
(used in witnesses). -/
def c3L : List (ℚ × (NodeId × NodeId)) :=
  [(0, (.orig 0, .orig 1)), (0, (.orig 1, .orig 2))]

/-- The candidate list produced on the sanitized 3-node path under
λ = 1, u = [1,2,1], v = [1,3,1] (used in witnesses). -/
def c5L : List (ℚ × (NodeId × NodeId)) :=
  [(-2, (.orig 0, .orig 1)), (-2, (.orig 1, .orig 2))]

/-- The value of `coarsen_with_intermediate_checkpoints_old(path4, [0.1, 0.2])`
under `onesEig4`: a single entry for ratio 1/5 (see claim C1). -/
def c1Result : List (ℚ × Graph) :=
  [(1/5, ⟨[.orig 2, .orig 3, .flat [0, 1]],
          [(.orig 2, .orig 3), (.flat [0, 1], .orig 2)]⟩)]

/-! ## Model of the package import structure (claim C10)

`from M import a, b, ...` succeeds iff every requested name is an attribute of
module `M` after executing it; otherwise `ImportError` is raised at import
time, before any coarsening computation runs. -/

/-- The module-level names defined by executing
`src/graph_reduction/core/coarseners.py`: its imports, the single class
`CoarseNetCoarsener`, and the function `coarsenet`. -/
def coarsenersModuleNames : List String :=
  ["nx", "np", "eigs", "warnings", "Tuple", "Optional", "Dict", "List",
   "CoarseNetCoarsener", "coarsenet"]

/-- The names requested by `src/graph_reduction/core/__init__.py`:
`from .coarseners import BaseCoarsener, CoarseNetCoarsener, CoCoNUTCoarsener`. -/
def coreInitRequests : List String :=
  ["BaseCoarsener", "CoarseNetCoarsener", "CoCoNUTCoarsener"]

/-- The names requested by `test_refactored_coconut.py` from
`src.graph_reduction.core.coarseners`. -/
def testRefactoredRequests : List String :=
  ["CoCoNUTCoarsener", "coconut", "CoarseNetCoarsener", "coarsenet"]

/-- The names requested by `coconut_bignets_experiment.py` (line 45) from
`src.graph_reduction.core.coarseners`. -/
def bignetsExperimentRequests : List String :=
  ["CoCoNUTCoarsener", "CoarseNetCoarsener"]

/-- The names requested by `scripts/run_coconut_bignets.py` from
`graph_reduction.core.coarseners`. -/
def coconutBignetsScriptRequests : List String := ["CoCoNUTCoarsener"]

/-- Whether `from M import r1, r2, ...` succeeds. -/
def fromImportOk (defined requested : List String) : Bool :=
  requested.all (fun r => defined.contains r)

/-! ## Helper lemmas -/

theorem mem_setInsert {x i : Int} {l : List Int} :
    x ∈ setInsert i l ↔ x = i ∨ x ∈ l := by
  induction l with
  | nil => simp [setInsert]
  | cons j js ih =>
    unfold setInsert
    split_ifs with h1 h2
    · simp [List.mem_cons]
    · subst h2; simp [List.mem_cons]
    · simp only [List.mem_cons, ih]; tauto

theorem sorted_setInsert {i : Int} {l : List Int}
    (h : List.Sorted (· < ·) l) : List.Sorted (· < ·) (setInsert i l) := by
  induction l with
  | nil => simp [setInsert]
  | cons j js ih =>
    rw [List.sorted_cons] at h
    obtain ⟨hj, hjs⟩ := h
    unfold setInsert
    split_ifs with h1 h2
    · rw [List.sorted_cons]
      refine ⟨?_, List.sorted_cons.mpr ⟨hj, hjs⟩⟩
      intro b hb
      rcases List.mem_cons.mp hb with rfl | hb
      · exact h1
      · exact h1.trans (hj b hb)
    · exact List.sorted_cons.mpr ⟨hj, hjs⟩
    · rw [List.sorted_cons]
      refine ⟨?_, ih hjs⟩
      intro b hb
      rcases mem_setInsert.mp hb with rfl | hb
      · omega
      · exact hj b hb

theorem mem_setUnion {a b : List Int} {x : Int} :
    x ∈ setUnion a b ↔ x ∈ a ∨ x ∈ b := by
  induction b generalizing a with
  | nil => simp [setUnion]
  | cons j js ih =>
    show x ∈ setUnion (setInsert j a) js ↔ x ∈ a ∨ x ∈ j :: js
    rw [ih, mem_setInsert]
    simp only [List.mem_cons]
    tauto

theorem sorted_setUnion {a : List Int} (b : List Int)
    (h : List.Sorted (· < ·) a) : List.Sorted (· < ·) (setUnion a b) := by
  induction b generalizing a with
  | nil => exact h
  | cons j js ih => exact ih (sorted_setInsert h)

theorem mem_insertDesc {x y : ℚ × (NodeId × NodeId)}
    {l : List (ℚ × (NodeId × NodeId))} :
    y ∈ insertDesc x l ↔ y = x ∨ y ∈ l := by
  induction l with
  | nil => simp [insertDesc]
  | cons z zs ih =>
    unfold insertDesc
    split_ifs with h1
    · simp [List.mem_cons]
    · simp only [List.mem_cons, ih]; tauto

theorem pairwise_insertDesc {x : ℚ × (NodeId × NodeId)}
    {l : List (ℚ × (NodeId × NodeId))}
    (h : l.Pairwise (fun a b => b.1 ≤ a.1)) :
    (insertDesc x l).Pairwise (fun a b => b.1 ≤ a.1) := by
  induction l with
  | nil => simp [insertDesc]
  | cons y ys ih =>
    rw [List.pairwise_cons] at h
    obtain ⟨hy, hys⟩ := h
    unfold insertDesc
    split_ifs with h1
    · rw [List.pairwise_cons]
      refine ⟨?_, List.pairwise_cons.mpr ⟨hy, hys⟩⟩
      intro b hb
      rcases List.mem_cons.mp hb with rfl | hb
      · exact le_of_lt h1
      · exact (hy b hb).trans (le_of_lt h1)
    · rw [List.pairwise_cons]
      refine ⟨?_, ih hys⟩
      intro b hb
      rcases mem_insertDesc.mp hb with rfl | hb
      · exact not_lt.mp h1
      · exact hy b hb

theorem filter_insertDesc (c : ℚ) {x : ℚ × (NodeId × NodeId)}
    {l : List (ℚ × (NodeId × NodeId))}
    (h : l.Pairwise (fun a b => b.1 ≤ a.1)) :
    (insertDesc x l).filter (fun e => e.1 = c) =
      if x.1 = c then l.filter (fun e => e.1 = c) ++ [x]
      else l.filter (fun e => e.1 = c) := by
  induction l with
  | nil =>
    by_cases hx : x.1 = c
    · rw [if_pos hx]; simp [insertDesc, hx]
    · rw [if_neg hx]; simp [insertDesc, hx]
  | cons y ys ih =>
    rw [List.pairwise_cons] at h
    obtain ⟨hy, hys⟩ := h
    by_cases h1 : y.1 < x.1
    · have hstep : insertDesc x (y :: ys) = x :: y :: ys := by
        simp only [insertDesc]; rw [if_pos h1]
      rw [hstep]
      by_cases hx : x.1 = c
      · rw [if_pos hx]
        have hnil : List.filter (fun e => decide (e.1 = c)) (y :: ys) = [] := by
          rw [List.filter_eq_nil_iff]
          intro a ha
          simp only [decide_eq_true_eq]
          intro hc
          rcases List.mem_cons.mp ha with rfl | ha
          · rw [hc, ← hx] at h1; exact lt_irrefl _ h1
          · have hle := hy a ha
            rw [hc, ← hx] at hle
            exact absurd h1 (not_lt.mpr hle)
        rw [List.filter_cons_of_pos (by simpa using hx), hnil]
        simp
      · rw [if_neg hx, List.filter_cons_of_neg (by simpa using hx)]
    · have hstep : insertDesc x (y :: ys) = y :: insertDesc x ys := by
        simp only [insertDesc]; rw [if_neg h1]
      rw [hstep]
      by_cases hx : x.1 = c
      · rw [if_pos hx]
        by_cases hyc : y.1 = c
        · rw [List.filter_cons_of_pos (by simpa using hyc),
            List.filter_cons_of_pos (by simpa using hyc),
            ih hys, if_pos hx, List.cons_append]
        · rw [List.filter_cons_of_neg (by simpa using hyc),
            List.filter_cons_of_neg (by simpa using hyc), ih hys, if_pos hx]
      · rw [if_neg hx]
        by_cases hyc : y.1 = c
        · rw [List.filter_cons_of_pos (by simpa using hyc),
            List.filter_cons_of_pos (by simpa using hyc),
            ih hys, if_neg hx]
        · rw [List.filter_cons_of_neg (by simpa using hyc),
            List.filter_cons_of_neg (by simpa using hyc), ih hys, if_neg hx]

theorem pySortDesc_aux (l : List (ℚ × (NodeId × NodeId)))
    (acc : List (ℚ × (NodeId × NodeId)))
    (hacc : acc.Pairwise (fun a b => b.1 ≤ a.1)) :
    (l.foldl (fun a x => insertDesc x a) acc).Pairwise
      (fun a b => b.1 ≤ a.1) ∧
    ∀ c : ℚ, (l.foldl (fun a x => insertDesc x a) acc).filter
        (fun e => e.1 = c) =
      acc.filter (fun e => e.1 = c) ++ l.filter (fun e => e.1 = c) := by
  induction l generalizing acc with
  | nil => exact ⟨hacc, fun c => by simp⟩
  | cons x xs ih =>
    obtain ⟨hpw, hfil⟩ := ih (insertDesc x acc) (pairwise_insertDesc hacc)
    refine ⟨hpw, fun c => ?_⟩
    rw [List.foldl_cons, hfil c, filter_insertDesc c hacc]
    by_cases hx : x.1 = c
    · rw [if_pos hx]
      simp [List.filter_cons, hx, List.append_assoc]
    · rw [if_neg hx]
      simp [List.filter_cons, hx]

/-- The sort consumed by the merge loop contains exactly the emitted
candidates. -/
theorem mem_pySortDesc {x : ℚ × (NodeId × NodeId)}
    {l : List (ℚ × (NodeId × NodeId))} :
    x ∈ pySortDesc l ↔ x ∈ l := by
  suffices h : ∀ acc, x ∈ l.foldl (fun a y => insertDesc y a) acc ↔
      x ∈ acc ∨ x ∈ l by
    simpa using h []
  induction l with
  | nil => simp
  | cons y ys ih =>
    intro acc
    rw [List.foldl_cons, ih, mem_insertDesc]
    simp only [List.mem_cons]
    tauto

/-- A graph is edge-wellformed when every edge joins existing nodes. -/
theorem addNode_edges (g : Graph) (x : NodeId) :
    (g.addNode x).edges = g.edges := by
  unfold Graph.addNode; split <;> rfl

theorem mem_addNode_nodes {g : Graph} {x y : NodeId} :
    y ∈ (g.addNode x).nodes ↔ y ∈ g.nodes ∨ y = x := by
  unfold Graph.addNode
  split
  · next h =>
    constructor
    · exact Or.inl
    · rintro (hy | rfl)
      · exact hy
      · exact h
  · simp [List.mem_append]

theorem addNode_nodes_nodup {g : Graph} {x : NodeId} (h : g.nodes.Nodup) :
    (g.addNode x).nodes.Nodup := by
  unfold Graph.addNode
  split
  · exact h
  · next hx =>
    refine List.Nodup.append h (List.nodup_singleton x) ?_
    intro a ha hax
    rw [List.mem_singleton.mp hax] at ha
    exact hx ha

theorem addEdge_nodes_of_mem {g : Graph} {u v : NodeId}
    (hu : u ∈ g.nodes) (hv : v ∈ g.nodes) :
    (g.addEdge u v).nodes = g.nodes := by
  unfold Graph.addEdge
  split
  · rfl
  · have h1 : g.addNode u = g := by unfold Graph.addNode; rw [if_pos hu]
    have h2 : g.addNode v = g := by unfold Graph.addNode; rw [if_pos hv]
    show ((g.addNode u).addNode v).nodes = g.nodes
    rw [h1, h2]

theorem mem_addEdge_nodes {g : Graph} {u v y : NodeId} (hy : y ∈ g.nodes) :
    y ∈ (g.addEdge u v).nodes := by
  unfold Graph.addEdge
  split
  · exact hy
  · show y ∈ ((g.addNode u).addNode v).nodes
    exact mem_addNode_nodes.mpr (Or.inl (mem_addNode_nodes.mpr (Or.inl hy)))

theorem addEdge_nodes_nodup {g : Graph} {u v : NodeId} (h : g.nodes.Nodup) :
    (g.addEdge u v).nodes.Nodup := by
  unfold Graph.addEdge
  split
  · exact h
  · exact addNode_nodes_nodup (addNode_nodes_nodup h)

theorem addNode_ewf {g : Graph} {x : NodeId}
    (h : ∀ e ∈ g.edges, e.1 ∈ g.nodes ∧ e.2 ∈ g.nodes) :
    ∀ e ∈ (g.addNode x).edges, e.1 ∈ (g.addNode x).nodes ∧
      e.2 ∈ (g.addNode x).nodes := by
  intro e he
  rw [addNode_edges] at he
  obtain ⟨h1, h2⟩ := h e he
  exact ⟨mem_addNode_nodes.mpr (Or.inl h1), mem_addNode_nodes.mpr (Or.inl h2)⟩

theorem addEdge_ewf {g : Graph} {u v : NodeId}
    (h : ∀ e ∈ g.edges, e.1 ∈ g.nodes ∧ e.2 ∈ g.nodes) :
    ∀ e ∈ (g.addEdge u v).edges, e.1 ∈ (g.addEdge u v).nodes ∧
      e.2 ∈ (g.addEdge u v).nodes := by
  unfold Graph.addEdge
  split
  · exact h
  · intro e he
    show e.1 ∈ ((g.addNode u).addNode v).nodes ∧
      e.2 ∈ ((g.addNode u).addNode v).nodes
    have hedges : ((g.addNode u).addNode v).edges = g.edges := by
      rw [addNode_edges, addNode_edges]
    rcases List.mem_append.mp he with he | he
    · rw [hedges] at he
      obtain ⟨h1, h2⟩ := h e he
      exact ⟨mem_addNode_nodes.mpr (Or.inl (mem_addNode_nodes.mpr (Or.inl h1))),
             mem_addNode_nodes.mpr (Or.inl (mem_addNode_nodes.mpr (Or.inl h2)))⟩
    · rw [List.mem_singleton.mp he]
      exact ⟨mem_addNode_nodes.mpr (Or.inl (mem_addNode_nodes.mpr (Or.inr rfl))),
             mem_addNode_nodes.mpr (Or.inr rfl)⟩

theorem removeNode_ewf {g : Graph} {x : NodeId}
    (h : ∀ e ∈ g.edges, e.1 ∈ g.nodes ∧ e.2 ∈ g.nodes) :
    ∀ e ∈ (g.removeNode x).edges, e.1 ∈ (g.removeNode x).nodes ∧
      e.2 ∈ (g.removeNode x).nodes := by
  intro e he
  unfold Graph.removeNode at he ⊢
  rw [List.mem_filter] at he
  obtain ⟨he, hcond⟩ := he
  simp only [decide_eq_true_eq, Bool.and_eq_true, ne_eq] at hcond
  obtain ⟨h1, h2⟩ := h e he
  constructor
  · rw [List.mem_filter]
    exact ⟨h1, by simpa using hcond.1⟩
  · rw [List.mem_filter]
    exact ⟨h2, by simpa using hcond.2⟩

theorem neighborsOf_subset {g : Graph} {x : NodeId}
    (h : ∀ e ∈ g.edges, e.1 ∈ g.nodes ∧ e.2 ∈ g.nodes) :
    ∀ y ∈ g.neighborsOf x, y ∈ g.nodes := by
  intro y hy
  unfold Graph.neighborsOf at hy
  obtain ⟨e, he, hfe⟩ := List.mem_filterMap.mp hy
  split at hfe
  · injection hfe with hfe
    rw [← hfe]
    exact (h e he).2
  · split at hfe
    · injection hfe with hfe
      rw [← hfe]
      exact (h e he).1
    · cases hfe

theorem foldl_addEdge_nodes_const {l : List NodeId} {g : Graph} {x : NodeId}
    (hx : x ∈ g.nodes) (hl : ∀ y ∈ l, y ∈ g.nodes) :
    (l.foldl (fun h nb => h.addEdge x nb) g).nodes = g.nodes := by
  induction l generalizing g with
  | nil => rfl
  | cons y ys ih =>
    rw [List.foldl_cons]
    have heq : (g.addEdge x y).nodes = g.nodes :=
      addEdge_nodes_of_mem hx (hl y (List.mem_cons_self y ys))
    rw [ih (by rw [heq]; exact hx)
        (fun z hz => by rw [heq]; exact hl z (List.mem_cons_of_mem y hz)), heq]

theorem foldl_addEdge_ewf {l : List NodeId} {g : Graph} {x : NodeId}
    (h : ∀ e ∈ g.edges, e.1 ∈ g.nodes ∧ e.2 ∈ g.nodes) :
    ∀ e ∈ (l.foldl (fun h nb => h.addEdge x nb) g).edges,
      e.1 ∈ (l.foldl (fun h nb => h.addEdge x nb) g).nodes ∧
      e.2 ∈ (l.foldl (fun h nb => h.addEdge x nb) g).nodes := by
  induction l generalizing g with
  | nil => exact h
  | cons y ys ih => exact ih (addEdge_ewf h)

/-- The node list after a contraction: the fresh supernode is appended, the
two merged supernodes are removed, all other nodes survive in order. -/
theorem contract_nodes {g : Graph} {sa sb newId : NodeId}
    (hnew : newId ∉ g.nodes)
    (hwf : ∀ e ∈ g.edges, e.1 ∈ g.nodes ∧ e.2 ∈ g.nodes) :
    (contract g sa sb newId).nodes =
      ((g.nodes ++ [newId]).filter (fun x => x ≠ sa)).filter
        (fun x => x ≠ sb) := by
  unfold contract
  have h1 : (g.addNode newId).nodes = g.nodes ++ [newId] := by
    unfold Graph.addNode
    rw [if_neg hnew]
  have hx : newId ∈ (g.addNode newId).nodes := by
    rw [h1]
    exact List.mem_append_right _ (List.mem_singleton.mpr rfl)
  have hl : ∀ y ∈ ((g.neighborsOf sa ++ g.neighborsOf sb).dedup).filter
      (fun x => x ≠ sa ∧ x ≠ sb), y ∈ (g.addNode newId).nodes := by
    intro y hy
    rw [List.mem_filter] at hy
    have hy2 := List.mem_dedup.mp hy.1
    rw [mem_addNode_nodes]
    left
    rcases List.mem_append.mp hy2 with hy3 | hy3
    · exact neighborsOf_subset hwf y hy3
    · exact neighborsOf_subset hwf y hy3
  show ((((List.filter _ (List.dedup _)).foldl _ (g.addNode newId)).removeNode
      sa).removeNode sb).nodes = _
  unfold Graph.removeNode
  rw [foldl_addEdge_nodes_const hx hl, h1]

theorem contract_ewf {g : Graph} {sa sb newId : NodeId}
    (hwf : ∀ e ∈ g.edges, e.1 ∈ g.nodes ∧ e.2 ∈ g.nodes) :
    ∀ e ∈ (contract g sa sb newId).edges,
      e.1 ∈ (contract g sa sb newId).nodes ∧
      e.2 ∈ (contract g sa sb newId).nodes := by
  unfold contract
  exact removeNode_ewf (removeNode_ewf (foldl_addEdge_ewf (addNode_ewf hwf)))

theorem regFind_eq {reg : Reg} {p : NodeId × List Int}
    (hk : (reg.map Prod.fst).Nodup) (hp : p ∈ reg) :
    regFind reg p.1 = some p.2 := by
  induction reg with
  | nil => cases hp
  | cons q rest ih =>
    rw [List.map_cons, List.nodup_cons] at hk
    obtain ⟨hq, hk⟩ := hk
    rcases List.mem_cons.mp hp with rfl | hp
    · unfold regFind
      rw [if_pos rfl]
    · unfold regFind
      rw [if_neg, ih hk hp]
      intro hqp
      exact hq (hqp ▸ List.mem_map.mpr ⟨p, hp, rfl⟩)

theorem key_inj {reg : Reg} (hk : (reg.map Prod.fst).Nodup)
    {p q : NodeId × List Int} (hp : p ∈ reg) (hq : q ∈ reg)
    (h : p.1 = q.1) : p = q := by
  have h1 := regFind_eq hk hp
  have h2 := regFind_eq hk hq
  rw [h, h2] at h1
  injection h1 with h1
  obtain ⟨pa, pb⟩ := p
  obtain ⟨qa, qb⟩ := q
  simp only at h h1
  rw [h, h1]

theorem mem_regErase {reg : Reg} {k : NodeId} {p : NodeId × List Int} :
    p ∈ regErase reg k ↔ p ∈ reg ∧ p.1 ≠ k := by
  unfold regErase
  rw [List.mem_filter]
  simp

theorem regFind_regErase_ne {reg : Reg} {k x : NodeId} (hne : k ≠ x) :
    regFind (regErase reg x) k = regFind reg k := by
  induction reg with
  | nil => rfl
  | cons q rest ih =>
    by_cases hq : q.1 = x
    · have hdrop : regErase (q :: rest) x = regErase rest x := by
        unfold regErase
        rw [List.filter_cons_of_neg (by simp [hq])]
      have hqk : q.1 ≠ k := fun h => hne (h.symm.trans hq)
      have hrhs : regFind (q :: rest) k = regFind rest k := by
        simp only [regFind]
        rw [if_neg hqk]
      rw [hdrop, ih, hrhs]
    · have hkeep : regErase (q :: rest) x = q :: regErase rest x := by
        unfold regErase
        rw [List.filter_cons_of_pos (by simp [hq])]
      rw [hkeep]
      simp only [regFind]
      by_cases hqk : q.1 = k
      · rw [if_pos hqk, if_pos hqk]
      · rw [if_neg hqk, if_neg hqk, ih]

theorem regFind_append_left {l1 l2 : Reg} {k : NodeId} {w : List Int}
    (h : regFind l1 k = some w) : regFind (l1 ++ l2) k = some w := by
  induction l1 with
  | nil => cases h
  | cons q rest ih =>
    simp only [regFind] at h
    rw [List.cons_append]
    simp only [regFind]
    split at h
    · next hq => rw [if_pos hq]; exact h
    · next hq => rw [if_neg hq]; exact ih h

theorem regFind_append_right {l1 l2 : Reg} {k : NodeId}
    (h : regFind l1 k = none) : regFind (l1 ++ l2) k = regFind l2 k := by
  induction l1 with
  | nil => rfl
  | cons q rest ih =>
    simp only [regFind] at h
    split at h
    · cases h
    · next hq =>
      rw [List.cons_append]
      simp only [regFind]
      rw [if_neg hq]
      exact ih h

theorem regFind_none {reg : Reg} {k : NodeId}
    (h : ∀ p ∈ reg, p.1 ≠ k) : regFind reg k = none := by
  induction reg with
  | nil => rfl
  | cons q rest ih =>
    unfold regFind
    rw [if_neg (h q (List.mem_cons_self q rest))]
    exact ih (fun p hp => h p (List.mem_cons_of_mem q hp))

theorem regSet_append {reg : Reg} {k : NodeId} {v : List Int}
    (h : ∀ p ∈ reg, p.1 ≠ k) : regSet reg k v = reg ++ [(k, v)] := by
  unfold regSet
  rw [if_neg]
  intro hc
  obtain ⟨p, hp, hpe⟩ := List.any_eq_true.mp hc
  exact h p hp (of_decide_eq_true hpe)

theorem regErase_length {reg : Reg} {p : NodeId × List Int}
    (hk : (reg.map Prod.fst).Nodup) (hp : p ∈ reg) :
    (regErase reg p.1).length + 1 = reg.length := by
  induction reg with
  | nil => cases hp
  | cons q rest ih =>
    rw [List.map_cons, List.nodup_cons] at hk
    obtain ⟨hq, hk⟩ := hk
    rcases List.mem_cons.mp hp with rfl | hp
    · unfold regErase
      rw [List.filter_cons_of_neg (by simp)]
      have hself : rest.filter (fun r => r.1 ≠ p.1) = rest := by
        rw [List.filter_eq_self]
        intro a ha
        simp only [ne_eq, decide_not, Bool.not_eq_true', decide_eq_false_iff_not]
        intro hae
        exact hq (hae ▸ List.mem_map.mpr ⟨a, ha, rfl⟩)
      show (rest.filter (fun r => r.1 ≠ p.1)).length + 1 = rest.length + 1
      rw [hself]
    · unfold regErase
      rw [List.filter_cons_of_pos
        (by
          simp only [ne_eq, decide_not, Bool.not_eq_true', decide_eq_false_iff_not]
          intro hqp
          exact hq (hqp ▸ List.mem_map.mpr ⟨p, hp, rfl⟩))]
      show (regErase rest p.1).length + 1 + 1 = rest.length + 1
      rw [ih hk hp]

theorem pairwise_disj_of_ne {reg : Reg}
    (h : reg.Pairwise (fun p q => ∀ i ∈ p.2, i ∉ q.2))
    {p q : NodeId × List Int} (hp : p ∈ reg) (hq : q ∈ reg) (hne : p ≠ q) :
    ∀ x ∈ p.2, x ∉ q.2 := by
  refine h.forall ?_ hp hq hne
  intro a b hab x hxa hxb
  exact hab x hxb hxa

theorem foldl_addNode_nodup {l : List NodeId} {g : Graph}
    (h : g.nodes.Nodup) : (l.foldl Graph.addNode g).nodes.Nodup := by
  induction l generalizing g with
  | nil => exact h
  | cons x xs ih => exact ih (addNode_nodes_nodup h)

theorem mem_foldl_addNode {l : List NodeId} {g : Graph} {y : NodeId} :
    y ∈ (l.foldl Graph.addNode g).nodes ↔ y ∈ g.nodes ∨ y ∈ l := by
  induction l generalizing g with
  | nil => simp
  | cons x xs ih =>
    rw [List.foldl_cons, ih, mem_addNode_nodes]
    simp only [List.mem_cons]
    tauto

theorem foldl_addEdge2_nodup {l : List (NodeId × NodeId)} {g : Graph}
    (h : g.nodes.Nodup) :
    (l.foldl (fun h e => h.addEdge e.1 e.2) g).nodes.Nodup := by
  induction l generalizing g with
  | nil => exact h
  | cons x xs ih => exact ih (addEdge_nodes_nodup h)

theorem mem_foldl_addEdge2 {l : List (NodeId × NodeId)} {g : Graph}
    {y : NodeId} (hy : y ∈ (l.foldl (fun h e => h.addEdge e.1 e.2) g).nodes) :
    y ∈ g.nodes ∨ ∃ e ∈ l, y = e.1 ∨ y = e.2 := by
  induction l generalizing g with
  | nil => exact Or.inl hy
  | cons x xs ih =>
    rw [List.foldl_cons] at hy
    rcases ih hy with hy | ⟨e, he, hor⟩
    · unfold Graph.addEdge at hy
      split at hy
      · exact Or.inl hy
      · rcases mem_addNode_nodes.mp hy with hy | rfl
        · rcases mem_addNode_nodes.mp hy with hy | rfl
          · exact Or.inl hy
          · exact Or.inr ⟨x, List.mem_cons_self x xs, Or.inl rfl⟩
        · exact Or.inr ⟨x, List.mem_cons_self x xs, Or.inr rfl⟩
    · exact Or.inr ⟨e, List.mem_cons_of_mem x he, hor⟩

theorem foldl_addEdge2_ewf {l : List (NodeId × NodeId)} {g : Graph}
    (h : ∀ e ∈ g.edges, e.1 ∈ g.nodes ∧ e.2 ∈ g.nodes) :
    ∀ e ∈ (l.foldl (fun h e => h.addEdge e.1 e.2) g).edges,
      e.1 ∈ (l.foldl (fun h e => h.addEdge e.1 e.2) g).nodes ∧
      e.2 ∈ (l.foldl (fun h e => h.addEdge e.1 e.2) g).nodes := by
  induction l generalizing g with
  | nil => exact h
  | cons x xs ih => exact ih (addEdge_ewf h)

theorem sanitize_nodes_nodup (G : Graph) : (sanitize G).nodes.Nodup := by
  show (G.edges.foldl (fun h e => h.addEdge e.1 e.2)
    (G.nodes.foldl Graph.addNode ⟨[], []⟩)).nodes.Nodup
  exact foldl_addEdge2_nodup (foldl_addNode_nodup (List.nodup_nil))

theorem foldl_addNode_edges (l : List NodeId) (g : Graph) :
    (l.foldl Graph.addNode g).edges = g.edges := by
  induction l generalizing g with
  | nil => rfl
  | cons x xs ih => rw [List.foldl_cons, ih, addNode_edges]

theorem sanitize_ewf (G : Graph) :
    ∀ e ∈ (sanitize G).edges, e.1 ∈ (sanitize G).nodes ∧
      e.2 ∈ (sanitize G).nodes := by
  intro e he
  have hsub : e ∈ (G.edges.foldl (fun h e => h.addEdge e.1 e.2)
      (G.nodes.foldl Graph.addNode ⟨[], []⟩)).edges := by
    have heq : (sanitize G).edges =
        (G.edges.foldl (fun h e => h.addEdge e.1 e.2)
          (G.nodes.foldl Graph.addNode ⟨[], []⟩)).edges.filter
          (fun e => e.1 ≠ e.2) := rfl
    rw [heq] at he
    exact (List.mem_filter.mp he).1
  refine foldl_addEdge2_ewf ?_ e hsub
  intro e' he'
  rw [foldl_addNode_edges] at he'
  cases he'

theorem sanitize_noloop (G : Graph) :
    ∀ e ∈ (sanitize G).edges, e.1 ≠ e.2 := by
  intro e he
  have : (sanitize G).edges =
      (G.edges.foldl (fun h e => h.addEdge e.1 e.2)
        (G.nodes.foldl Graph.addNode ⟨[], []⟩)).edges.filter
        (fun e => e.1 ≠ e.2) := rfl
  rw [this] at he
  have := (List.mem_filter.mp he).2
  simpa using this

theorem sanitize_orig {G : Graph} (hwf : wfInput G) :
    ∀ x ∈ (sanitize G).nodes, x.isOrig = true := by
  intro x hx
  have hx2 : x ∈ (G.edges.foldl (fun h e => h.addEdge e.1 e.2)
      (G.nodes.foldl Graph.addNode ⟨[], []⟩)).nodes := hx
  rcases mem_foldl_addEdge2 hx2 with hx3 | ⟨e, he, hor⟩
  · rcases mem_foldl_addNode.mp hx3 with hx4 | hx4
    · cases hx4
    · exact hwf.1 x hx4
  · rcases hor with rfl | rfl
    · exact (hwf.2 e he).1
    · exact (hwf.2 e he).2

theorem map_fst_regErase (reg : Reg) (k : NodeId) :
    (regErase reg k).map Prod.fst = (reg.map Prod.fst).filter (fun x => x ≠ k) := by
  unfold regErase
  induction reg with
  | nil => rfl
  | cons q rest ih =>
    by_cases hq : q.1 = k
    · rw [List.filter_cons_of_neg (by simp [hq]), List.map_cons,
        List.filter_cons_of_neg (by simp [hq]), ih]
    · rw [List.filter_cons_of_pos (by simp [hq]), List.map_cons, List.map_cons,
        List.filter_cons_of_pos (by simp [hq]), ih]

/-- The heart of the partition argument: one merge of the two distinct
supernodes currently holding labels `i` and `j` preserves the full loop
invariant, for either naming scheme. -/
theorem regInv_mergeStep {orig : List Int} {st : LoopState} (flat : Bool)
    (ckpt : Int → Option ℚ) {i j : Int}
    (inv : RegInv orig st) (hi : i ∈ orig) (hj : j ∈ orig)
    (hne : st.nmap i ≠ st.nmap j) :
    RegInv orig (mergeStep flat ckpt st (st.nmap i) (st.nmap j)) := by
  obtain ⟨pa, hpa, hmi, hia⟩ := inv.maps i hi
  obtain ⟨pb, hpb, hmj, hjb⟩ := inv.maps j hj
  have hfa : regFind st.reg (st.nmap i) = some pa.2 := by
    rw [hmi]; exact regFind_eq inv.keys hpa
  have hfb : regFind st.reg (st.nmap j) = some pb.2 := by
    rw [hmj]; exact regFind_eq inv.keys hpb
  have hpane : pa ≠ pb := fun h => hne (by rw [hmi, hmj, h])
  have hdab : ∀ x ∈ pa.2, x ∉ pb.2 :=
    pairwise_disj_of_ne inv.disj hpa hpb hpane
  have hdba : ∀ x ∈ pb.2, x ∉ pa.2 :=
    pairwise_disj_of_ne inv.disj hpb hpa (fun h => hpane h.symm)
  have hmemC : ∀ x : Int, x ∈ setUnion pa.2 pb.2 ↔ x ∈ pa.2 ∨ x ∈ pb.2 :=
    fun x => mem_setUnion
  have hsupA : (st.nmap i).support = pa.2 := by rw [hmi]; exact inv.supp pa hpa
  have hsupB : (st.nmap j).support = pb.2 := by rw [hmj]; exact inv.supp pb hpb
  have hsupNew :
      (if flat then NodeId.flat (setUnion pa.2 pb.2)
       else NodeId.pair (st.nmap i) (st.nmap j)).support =
        setUnion pa.2 pb.2 := by
    split
    · rfl
    · show setUnion (st.nmap i).support (st.nmap j).support = _
      rw [hsupA, hsupB]
  obtain ⟨xa, hxa⟩ := List.exists_mem_of_ne_nil _ (inv.nonnil pa hpa)
  obtain ⟨xb, hxb⟩ := List.exists_mem_of_ne_nil _ (inv.nonnil pb hpb)
  have hfreshAll : ∀ q ∈ st.reg,
      q.1 ≠ (if flat then NodeId.flat (setUnion pa.2 pb.2)
             else NodeId.pair (st.nmap i) (st.nmap j)) := by
    intro q hqreg hqe
    have hsupq : q.2 = setUnion pa.2 pb.2 := by
      rw [← inv.supp q hqreg, hqe, hsupNew]
    by_cases hqa : q = pa
    · subst hqa
      have hxbq : xb ∈ q.2 := by
        rw [hsupq]; exact (hmemC xb).mpr (Or.inr hxb)
      exact hdba xb hxb hxbq
    · have hxaq : xa ∈ q.2 := by
        rw [hsupq]; exact (hmemC xa).mpr (Or.inl hxa)
      exact pairwise_disj_of_ne inv.disj hqreg hpa hqa xa hxaq hxa
  have hfresh : ∀ q ∈ regErase (regErase st.reg (st.nmap i)) (st.nmap j),
      q.1 ≠ (if flat then NodeId.flat (setUnion pa.2 pb.2)
             else NodeId.pair (st.nmap i) (st.nmap j)) :=
    fun q hq => hfreshAll q (mem_regErase.mp (mem_regErase.mp hq).1).1
  have hkeyA : ∀ q ∈ st.reg, q.1 = st.nmap i → q = pa := by
    intro q hq hq1
    exact key_inj inv.keys hq hpa (hq1.trans hmi)
  have hkeyB : ∀ q ∈ st.reg, q.1 = st.nmap j → q = pb := by
    intro q hq hq1
    exact key_inj inv.keys hq hpb (hq1.trans hmj)
  have hregSet : (mergeStep flat ckpt st (st.nmap i) (st.nmap j)).reg =
      regErase (regErase st.reg (st.nmap i)) (st.nmap j) ++
        [(if flat then NodeId.flat (setUnion pa.2 pb.2)
          else NodeId.pair (st.nmap i) (st.nmap j), setUnion pa.2 pb.2)] := by
    show regSet (regErase (regErase st.reg (st.nmap i)) (st.nmap j))
        (if flat then NodeId.flat
            (setUnion ((regFind st.reg (st.nmap i)).getD [])
              ((regFind st.reg (st.nmap j)).getD []))
         else NodeId.pair (st.nmap i) (st.nmap j))
        (setUnion ((regFind st.reg (st.nmap i)).getD [])
          ((regFind st.reg (st.nmap j)).getD [])) = _
    rw [hfa, hfb]
    simp only [Option.getD_some]
    exact regSet_append hfresh
  have hnmapEq : (mergeStep flat ckpt st (st.nmap i) (st.nmap j)).nmap =
      fun x => if x ∈ setUnion pa.2 pb.2 then
          (if flat then NodeId.flat (setUnion pa.2 pb.2)
           else NodeId.pair (st.nmap i) (st.nmap j))
        else st.nmap x := by
    show (fun x => if x ∈ setUnion ((regFind st.reg (st.nmap i)).getD [])
        ((regFind st.reg (st.nmap j)).getD []) then
          (if flat then NodeId.flat
              (setUnion ((regFind st.reg (st.nmap i)).getD [])
                ((regFind st.reg (st.nmap j)).getD []))
           else NodeId.pair (st.nmap i) (st.nmap j))
        else st.nmap x) = _
    rw [hfa, hfb]
    simp only [Option.getD_some]
  have hgEq : (mergeStep flat ckpt st (st.nmap i) (st.nmap j)).g =
      contract st.g (st.nmap i) (st.nmap j)
        (if flat then NodeId.flat (setUnion pa.2 pb.2)
         else NodeId.pair (st.nmap i) (st.nmap j)) := by
    show contract st.g (st.nmap i) (st.nmap j)
        (if flat then NodeId.flat
            (setUnion ((regFind st.reg (st.nmap i)).getD [])
              ((regFind st.reg (st.nmap j)).getD []))
         else NodeId.pair (st.nmap i) (st.nmap j)) = _
    rw [hfa, hfb]
    simp only [Option.getD_some]
  have herasedSub : ∀ q ∈ regErase (regErase st.reg (st.nmap i)) (st.nmap j),
      q ∈ st.reg :=
    fun q hq => (mem_regErase.mp (mem_regErase.mp hq).1).1
  have herasedMem : ∀ q ∈ regErase (regErase st.reg (st.nmap i)) (st.nmap j),
      q ≠ pa ∧ q ≠ pb := by
    intro q hq
    obtain ⟨hq', hqj⟩ := mem_regErase.mp hq
    obtain ⟨hqreg, hqi⟩ := mem_regErase.mp hq'
    constructor
    · intro h; exact hqi (h ▸ hmi.symm)
    · intro h; exact hqj (h ▸ hmj.symm)
  have hmemErased : ∀ q ∈ st.reg, q ≠ pa → q ≠ pb →
      q ∈ regErase (regErase st.reg (st.nmap i)) (st.nmap j) := by
    intro q hq hqa hqb
    refine mem_regErase.mpr ⟨mem_regErase.mpr ⟨hq, ?_⟩, ?_⟩
    · intro h; exact hqa (hkeyA q hq h)
    · intro h; exact hqb (hkeyB q hq h)
  have hsublist : List.Sublist
      (regErase (regErase st.reg (st.nmap i)) (st.nmap j)) st.reg := by
    unfold regErase
    exact (List.filter_sublist _).trans (List.filter_sublist _)
  refine { supp := ?_, nonnil := ?_, sorted := ?_, keys := ?_, disj := ?_,
           coverA := ?_, coverB := ?_, maps := ?_, gnodes := ?_, ewf := ?_ }
  · intro p hp
    rw [hregSet] at hp
    rcases List.mem_append.mp hp with hp | hp
    · exact inv.supp p (herasedSub p hp)
    · rw [List.mem_singleton.mp hp]
      exact hsupNew
  · intro p hp
    rw [hregSet] at hp
    rcases List.mem_append.mp hp with hp | hp
    · exact inv.nonnil p (herasedSub p hp)
    · rw [List.mem_singleton.mp hp]
      exact List.ne_nil_of_mem ((hmemC xa).mpr (Or.inl hxa))
  · intro p hp
    rw [hregSet] at hp
    rcases List.mem_append.mp hp with hp | hp
    · exact inv.sorted p (herasedSub p hp)
    · rw [List.mem_singleton.mp hp]
      exact sorted_setUnion pb.2 (inv.sorted pa hpa)
  · rw [hregSet, List.map_append]
    refine List.Nodup.append ?_ (List.nodup_singleton _) ?_
    · exact inv.keys.sublist (hsublist.map Prod.fst)
    · intro a ha hax
      obtain ⟨q, hq, hqe⟩ := List.mem_map.mp ha
      rw [show ((if flat then NodeId.flat (setUnion pa.2 pb.2)
          else NodeId.pair (st.nmap i) (st.nmap j), setUnion pa.2 pb.2) ::
          ([] : Reg)).map Prod.fst =
        [if flat then NodeId.flat (setUnion pa.2 pb.2)
         else NodeId.pair (st.nmap i) (st.nmap j)] from rfl] at hax
      rw [List.mem_singleton.mp hax] at hqe
      exact hfresh q hq hqe
  · rw [hregSet, List.pairwise_append]
    refine ⟨inv.disj.sublist hsublist, List.pairwise_singleton _ _, ?_⟩
    intro q hq r hr x hxq
    rw [List.mem_singleton.mp hr]
    intro hxC
    obtain ⟨hqa, hqb⟩ := herasedMem q hq
    rcases (hmemC x).mp hxC with hx | hx
    · exact pairwise_disj_of_ne inv.disj (herasedSub q hq) hpa hqa x hxq hx
    · exact pairwise_disj_of_ne inv.disj (herasedSub q hq) hpb hqb x hxq hx
  · intro x hx
    rw [hregSet]
    obtain ⟨q, hq, hxq⟩ := inv.coverA x hx
    by_cases hqa : q = pa
    · exact ⟨_, List.mem_append_right _ (List.mem_singleton.mpr rfl),
        (hmemC x).mpr (Or.inl (hqa ▸ hxq))⟩
    · by_cases hqb : q = pb
      · exact ⟨_, List.mem_append_right _ (List.mem_singleton.mpr rfl),
          (hmemC x).mpr (Or.inr (hqb ▸ hxq))⟩
      · exact ⟨q, List.mem_append_left _ (hmemErased q hq hqa hqb), hxq⟩
  · intro p hp x hxp
    rw [hregSet] at hp
    rcases List.mem_append.mp hp with hp | hp
    · exact inv.coverB p (herasedSub p hp) x hxp
    · rw [List.mem_singleton.mp hp] at hxp
      rcases (hmemC x).mp hxp with hx | hx
      · exact inv.coverB pa hpa x hx
      · exact inv.coverB pb hpb x hx
  · intro x hx
    rw [hregSet, hnmapEq]
    by_cases hxC : x ∈ setUnion pa.2 pb.2
    · exact ⟨_, List.mem_append_right _ (List.mem_singleton.mpr rfl),
        if_pos hxC, hxC⟩
    · obtain ⟨q, hq, hqm, hqx⟩ := inv.maps x hx
      have hqa : q ≠ pa := by
        intro h
        exact hxC ((hmemC x).mpr (Or.inl (h ▸ hqx)))
      have hqb : q ≠ pb := by
        intro h
        exact hxC ((hmemC x).mpr (Or.inr (h ▸ hqx)))
      exact ⟨q, List.mem_append_left _ (hmemErased q hq hqa hqb),
        (if_neg hxC).trans hqm, hqx⟩
  · rw [hregSet, hgEq]
    have hnew : (if flat then NodeId.flat (setUnion pa.2 pb.2)
        else NodeId.pair (st.nmap i) (st.nmap j)) ∉ st.g.nodes := by
      rw [inv.gnodes]
      intro hmem
      obtain ⟨q, hq, hqe⟩ := List.mem_map.mp hmem
      exact hfreshAll q hq hqe
    rw [contract_nodes hnew inv.ewf, inv.gnodes, List.map_append,
      map_fst_regErase, map_fst_regErase]
    have hna : (if flat then NodeId.flat (setUnion pa.2 pb.2)
        else NodeId.pair (st.nmap i) (st.nmap j)) ≠ st.nmap i :=
      fun h => hfreshAll pa hpa (hmi.symm.trans h.symm)
    have hnb : (if flat then NodeId.flat (setUnion pa.2 pb.2)
        else NodeId.pair (st.nmap i) (st.nmap j)) ≠ st.nmap j :=
      fun h => hfreshAll pb hpb (hmj.symm.trans h.symm)
    rw [List.filter_append, List.filter_append]
    rw [show ([if flat then NodeId.flat (setUnion pa.2 pb.2)
        else NodeId.pair (st.nmap i) (st.nmap j)] : List NodeId).filter
        (fun x => x ≠ st.nmap i) =
      [if flat then NodeId.flat (setUnion pa.2 pb.2)
       else NodeId.pair (st.nmap i) (st.nmap j)] from by
        rw [List.filter_cons_of_pos (by simpa using hna)]; rfl]
    rw [show ([if flat then NodeId.flat (setUnion pa.2 pb.2)
        else NodeId.pair (st.nmap i) (st.nmap j)] : List NodeId).filter
        (fun x => x ≠ st.nmap j) =
      [if flat then NodeId.flat (setUnion pa.2 pb.2)
       else NodeId.pair (st.nmap i) (st.nmap j)] from by
        rw [List.filter_cons_of_pos (by simpa using hnb)]; rfl]
    rfl
  · rw [hgEq]
    exact contract_ewf inv.ewf

theorem isOrig_exists {x : NodeId} (h : x.isOrig = true) :
    ∃ n : Int, x = .orig n := by
  cases x with
  | orig n => exact ⟨n, rfl⟩
  | pair a b => cases h
  | flat l => cases h

theorem mem_origLabels {g : Graph} {i : Int} :
    i ∈ origLabels g ↔ NodeId.orig i ∈ g.nodes := by
  unfold origLabels
  rw [List.mem_filterMap]
  constructor
  · rintro ⟨x, hx, hfe⟩
    cases x with
    | orig n =>
      simp only at hfe
      injection hfe with hfe
      rw [← hfe]
      exact hx
    | pair a b => cases hfe
    | flat l => cases hfe
  · intro h
    exact ⟨.orig i, h, rfl⟩

/-- The identity partition satisfies the full invariant on any sanitized-style
graph (duplicate-free, integer-labelled, edge-wellformed). -/
theorem regInv_initState {g : Graph} (hnd : g.nodes.Nodup)
    (horig : ∀ x ∈ g.nodes, x.isOrig = true)
    (hewf : ∀ e ∈ g.edges, e.1 ∈ g.nodes ∧ e.2 ∈ g.nodes) :
    RegInv (origLabels g) (initState g) := by
  have hmapfst : ((g.nodes.map (fun x => (x, x.support))).map Prod.fst) =
      g.nodes := by
    induction g.nodes with
    | nil => rfl
    | cons x xs ih => simp only [List.map_cons]; rw [ih]
  refine { supp := ?_, nonnil := ?_, sorted := ?_, keys := ?_, disj := ?_,
           coverA := ?_, coverB := ?_, maps := ?_, gnodes := ?_, ewf := hewf }
  · intro p hp
    obtain ⟨x, _, hfe⟩ := List.mem_map.mp hp
    rw [← hfe]
  · intro p hp
    obtain ⟨x, hx, hfe⟩ := List.mem_map.mp hp
    obtain ⟨n, rfl⟩ := isOrig_exists (horig x hx)
    rw [← hfe]
    simp [NodeId.support]
  · intro p hp
    obtain ⟨x, hx, hfe⟩ := List.mem_map.mp hp
    obtain ⟨n, rfl⟩ := isOrig_exists (horig x hx)
    rw [← hfe]
    exact List.sorted_singleton n
  · show (List.map Prod.fst (g.nodes.map (fun x => (x, x.support)))).Nodup
    rw [hmapfst]; exact hnd
  · show (g.nodes.map (fun x => (x, x.support))).Pairwise
      (fun p q => ∀ i ∈ p.2, i ∉ q.2)
    rw [List.pairwise_map]
    refine hnd.imp_of_mem ?_
    intro x y hx hy hxy
    obtain ⟨a, rfl⟩ := isOrig_exists (horig x hx)
    obtain ⟨b, rfl⟩ := isOrig_exists (horig y hy)
    intro i hi hj
    simp only [NodeId.support, List.mem_singleton] at hi hj
    exact hxy (congrArg NodeId.orig (hi.symm.trans hj))
  · intro i hi
    refine ⟨(.orig i, [i]), ?_, List.mem_singleton.mpr rfl⟩
    exact List.mem_map.mpr ⟨.orig i, mem_origLabels.mp hi, rfl⟩
  · intro p hp i hip
    obtain ⟨x, hx, hfe⟩ := List.mem_map.mp hp
    obtain ⟨n, rfl⟩ := isOrig_exists (horig x hx)
    rw [← hfe] at hip
    simp only [NodeId.support, List.mem_singleton] at hip
    rw [hip]
    exact mem_origLabels.mpr hx
  · intro i hi
    exact ⟨(.orig i, [i]),
      List.mem_map.mpr ⟨.orig i, mem_origLabels.mp hi, rfl⟩, rfl,
      List.mem_singleton.mpr rfl⟩
  · exact hmapfst.symm

/-- One loop iteration preserves the invariant (skips trivially, merges via
`regInv_mergeStep`). -/
theorem regInv_loopStep {orig : List Int} {st : LoopState} (flat : Bool)
    (needed : Int) (ckpt : Int → Option ℚ) {t : ℚ × (NodeId × NodeId)}
    (inv : RegInv orig st)
    (ht : ∃ i j : Int, t.2 = (.orig i, .orig j) ∧ i ∈ orig ∧ j ∈ orig) :
    RegInv orig (loopStep flat needed ckpt st t) := by
  obtain ⟨i, j, ht2, hi, hj⟩ := ht
  unfold loopStep
  split
  · exact inv
  · split
    · exact inv
    · rw [ht2]
      dsimp only
      have inv1 : RegInv orig
          { st with uniq := (NodeId.orig i, NodeId.orig j) :: st.uniq } :=
        ⟨inv.supp, inv.nonnil, inv.sorted, inv.keys, inv.disj, inv.coverA,
         inv.coverB, inv.maps, inv.gnodes, inv.ewf⟩
      split
      · exact inv1
      · next hne =>
        exact regInv_mergeStep flat ckpt inv1 hi hj hne

/-- The whole merge loop preserves the invariant. -/
theorem regInv_runLoop {orig : List Int} (flat : Bool) (needed : Int)
    (ckpt : Int → Option ℚ) {st : LoopState}
    (tasks : List (ℚ × (NodeId × NodeId)))
    (hw : TasksWf orig tasks) (inv : RegInv orig st) :
    RegInv orig (runLoop flat needed ckpt st tasks) := by
  induction tasks generalizing st with
  | nil => exact inv
  | cons t ts ih =>
    exact ih (fun t' ht' => hw t' (List.mem_cons_of_mem t ht'))
      (regInv_loopStep flat needed ckpt inv (hw t (List.mem_cons_self t ts)))

/-- Membership in the emitted candidate list: `(s, p)` is emitted iff `p` is
the sorted pair of some edge whose denominator clears the tolerance, and `s`
is the signed quotient. -/
theorem computeScores_ok_mem {edges : List (NodeId × NodeId)}
    {nl : List NodeId} {lam : ℚ} {u v : List ℚ} {vd tol : ℚ}
    {l : List (ℚ × (NodeId × NodeId))}
    (h : computeScores edges nl lam u v vd tol = .ok l) :
    ∀ s p, (s, p) ∈ l ↔ ∃ e ∈ edges, pySortPair e.1 e.2 = p ∧
      ∃ n d, scorePair nl lam u v vd p = .ok (n, d) ∧ |d| > tol ∧ s = n / d := by
  induction edges generalizing l with
  | nil =>
    injection h with h
    subst h
    simp
  | cons e es ih =>
    unfold computeScores at h
    cases hsp : scorePair nl lam u v vd (pySortPair e.1 e.2) with
    | error msg => rw [hsp] at h; exact absurd h (by simp)
    | ok pr =>
      obtain ⟨num, den⟩ := pr
      rw [hsp] at h
      dsimp only at h
      cases hcs : computeScores es nl lam u v vd tol with
      | error msg => rw [hcs] at h; exact absurd h (by simp)
      | ok rest =>
        rw [hcs] at h
        dsimp only at h
        intro s p
        have hrest := ih hcs
        split at h
        · next htol =>
          injection h with h
          subst h
          rw [List.mem_cons]
          constructor
          · rintro (heq | hmem)
            · injection heq with h1 h2
              subst h1; subst h2
              exact ⟨e, List.mem_cons_self e es, rfl, num, den, hsp, htol, rfl⟩
            · obtain ⟨e', he', hpp, n', d', hsp', htol', hs'⟩ :=
                (hrest s p).mp hmem
              exact ⟨e', List.mem_cons_of_mem e he', hpp, n', d', hsp', htol', hs'⟩
          · rintro ⟨e', he', hpp, n', d', hsp', htol', hs'⟩
            rcases List.mem_cons.mp he' with rfl | he'
            · left
              rw [hpp] at hsp
              rw [hsp'] at hsp
              injection hsp with hsp
              injection hsp with hn hd
              subst hn; subst hd; subst hs'
              rw [hpp]
            · right
              exact (hrest s p).mpr ⟨e', he', hpp, n', d', hsp', htol', hs'⟩
        · next htol =>
          injection h with h
          subst h
          constructor
          · intro hmem
            obtain ⟨e', he', hpp, n', d', hsp', htol', hs'⟩ :=
              (hrest s p).mp hmem
            exact ⟨e', List.mem_cons_of_mem e he', hpp, n', d', hsp', htol', hs'⟩
          · rintro ⟨e', he', hpp, n', d', hsp', htol', hs'⟩
            rcases List.mem_cons.mp he' with rfl | he'
            · rw [hpp] at hsp
              rw [hsp'] at hsp
              injection hsp with hsp
              injection hsp with hn hd
              subst hn; subst hd
              exact absurd htol' htol
            · exact (hrest s p).mpr ⟨e', he', hpp, n', d', hsp', htol', hs'⟩

/-- The only exceptions the per-pair score computation can raise are
`IndexError` and `KeyError`. -/
theorem scorePair_error {nl : List NodeId} {lam : ℚ} {u v : List ℚ} {vd : ℚ}
    {p : NodeId × NodeId} {msg : String}
    (h : scorePair nl lam u v vd p = .error msg) :
    msg = "IndexError" ∨ msg = "KeyError" := by
  unfold scorePair at h
  split at h
  · split at h
    · exact absurd h (by simp)
    · exact Or.inl (by injection h with h; exact h.symm)
  · exact Or.inr (by injection h with h; exact h.symm)

/-- The scoring loop never raises `ValueError`. -/
theorem computeScores_ne_valueError (edges : List (NodeId × NodeId))
    (nl : List NodeId) (lam : ℚ) (u v : List ℚ) (vd tol : ℚ) :
    computeScores edges nl lam u v vd tol ≠ .error valueErrorMsg := by
  induction edges with
  | nil => simp [computeScores]
  | cons e es ih =>
    intro h
    unfold computeScores at h
    cases hsp : scorePair nl lam u v vd (pySortPair e.1 e.2) with
    | error msg =>
      rw [hsp] at h
      injection h with h
      rcases scorePair_error hsp with h' | h' <;> rw [h'] at h <;>
        exact absurd h (by decide)
    | ok pr =>
      obtain ⟨num, den⟩ := pr
      rw [hsp] at h
      dsimp only at h
      cases hcs : computeScores es nl lam u v vd tol with
      | error msg =>
        rw [hcs] at h
        injection h with h
        rw [h] at hcs
        exact ih hcs
      | ok rest =>
        rw [hcs] at h
        dsimp only at h
        split at h <;> exact absurd h (by simp)

/-! ## Claim C9 (code_bug) -/

/-- C9: the claim (and spec §4.2/§7) says that when the eigensolver fails or
the ≤2-node dense path is taken, the scorer produces no scores rather than
raising, and the run degrades to no contraction.  The code instead crashes:
on a 2-node graph with an edge, `_calculate_eigensystem` returns empty
eigenvector arrays and the scoring loop indexes them (`u[idx_a]`), raising
`IndexError` out of both entry points. -/
theorem c9_small_graph_crash :
    coarsen pathGraph2 (1/2) none defaultTol = .error "IndexError" ∧
    coarsenCkpt pathGraph2 [1/2] none defaultTol = .error "IndexError" := by
  decide

/-! ## Claim C10 (confirmed) -/

/-- C10: `core/__init__.py` requests `BaseCoarsener` and `CoCoNUTCoarsener`
from `coarseners.py`, which defines only `CoarseNetCoarsener` (and
`coarsenet`), so importing `graph_reduction.core` raises `ImportError`; the
CoCoNUT-selecting scripts (`test_refactored_coconut.py`,
`coconut_bignets_experiment.py`, `scripts/run_coconut_bignets.py`) request
`CoCoNUTCoarsener` (and `coconut`) directly and fail at import time, before
any coarsening computation. -/
theorem c10_import_error :
    fromImportOk coarsenersModuleNames coreInitRequests = false ∧
    coarsenersModuleNames.contains "CoarseNetCoarsener" = true ∧
    coarsenersModuleNames.contains "BaseCoarsener" = false ∧
    coarsenersModuleNames.contains "CoCoNUTCoarsener" = false ∧
    fromImportOk coarsenersModuleNames testRefactoredRequests = false ∧
    fromImportOk coarsenersModuleNames bignetsExperimentRequests = false ∧
    fromImportOk coarsenersModuleNames coconutBignetsScriptRequests = false := by
  decide

/-! ## Claim C1 (corrected) -/

/-- C1 counterexample: on the 4-node path with ratios {0.1, 0.2} (both valid)
and a successful eigensolve, the returned mapping contains an entry for 0.2
only: ratio 0.1 needs `4 - round(0.9·4) = 0` contractions, a count the loop
(which checks after incrementing) never hits, and the final fallback covers
only the *highest* ratio.  The mapping is partial, contradicting the claim
that every requested ratio receives a result. -/
theorem c1_partial_mapping_cx :
    coarsenCkpt pathGraph4 [1/10, 1/5] onesEig4 defaultTol = .ok c1Result ∧
    resLookup c1Result (1/10) = none ∧
    resLookup c1Result (1/5) ≠ none := by
  decide

/-- C1 amended: when `coarsenWithCheckpoints` returns normally on a non-empty
ratio list, the returned mapping either is empty (eigensolver failure or an
empty sanitized graph) or contains an entry for the *highest* requested ratio;
entries for the other requested ratios are not guaranteed. -/
theorem c1_highest_ratio_guarantee (G : Graph) (rs : List ℚ)
    (oracle : Option EigSys) (tol : ℚ) (m : List (ℚ × Graph))
    (hrs : rs ≠ []) (h : coarsenWithCheckpoints G rs oracle tol = .ok m) :
    m = [] ∨ ∃ p ∈ m, p.1 = highestOf rs := by
  unfold coarsenWithCheckpoints coarsenCkpt at h
  dsimp only at h
  rw [if_neg hrs] at h
  cases hp : prepTasks (sanitize G) oracle tol with
  | none =>
    rw [hp] at h
    injection h with h
    exact Or.inl h.symm
  | some res =>
    cases res with
    | error msg => rw [hp] at h; exact absurd h (by simp)
    | ok tasks =>
      rw [hp] at h
      dsimp only at h
      injection h with h
      right
      rw [← h]
      split
      · next hc =>
          obtain ⟨p, hpmem, hpe⟩ := List.any_eq_true.mp hc
          exact ⟨p, hpmem, of_decide_eq_true hpe⟩
      · exact ⟨_, List.mem_append_right _ (List.mem_singleton.mpr rfl), rfl⟩

/-- C1 amended, witness at the counterexample input. -/
theorem c1_highest_ratio_witness :
    ([1/10, 1/5] : List ℚ) ≠ [] ∧
    (c1Result = [] ∨ ∃ p ∈ c1Result, p.1 = highestOf [1/10, 1/5]) :=
  ⟨by decide,
   c1_highest_ratio_guarantee pathGraph4 [1/10, 1/5] onesEig4 defaultTol
     c1Result (by decide) (by decide)⟩

/-! ## Claim C8 (corrected) -/

/-- C8 counterexample: `coarsen_with_intermediate_checkpoints_old` performs no
ratio validation at all.  An empty ratio list returns the empty dict (not an
invalid-argument failure), and an out-of-range ratio (1.5) is processed
without complaint (it even contracts the graph to a single node). -/
theorem c8_no_ckpt_validation_cx :
    coarsenCkpt pathGraph3 [] onesEig3 defaultTol = .ok [] ∧
    coarsenCkpt pathGraph3 [3/2] onesEig3 defaultTol =
      .ok [(3/2, ⟨[.flat [0, 1, 2]], []⟩)] := by
  decide

/-- C8 amended: only `coarsen` validates: it raises `ValueError` for every
ratio outside (0,1); the checkpointed entry point never raises an
invalid-argument condition — an empty ratio list yields the empty mapping and
arbitrary ratio lists are processed as-is. -/
theorem c8_validation_behavior :
    (∀ (G : Graph) (alpha : ℚ) (oracle : Option EigSys) (tol : ℚ),
        ¬(0 < alpha ∧ alpha < 1) →
        coarsen G alpha oracle tol = .error valueErrorMsg) ∧
    (∀ (G : Graph) (oracle : Option EigSys) (tol : ℚ),
        coarsenWithCheckpoints G [] oracle tol = .ok []) ∧
    (∀ (G : Graph) (rs : List ℚ) (oracle : Option EigSys) (tol : ℚ),
        coarsenWithCheckpoints G rs oracle tol ≠ .error valueErrorMsg) := by
  refine ⟨?_, ?_, ?_⟩
  · intro G alpha oracle tol ha
    unfold coarsen coarsenOld
    dsimp only
    rw [if_pos ha]
  · intro G oracle tol
    unfold coarsenWithCheckpoints coarsenCkpt
    dsimp only
    rw [if_pos rfl]
  · intro G rs oracle tol h
    unfold coarsenWithCheckpoints coarsenCkpt at h
    dsimp only at h
    by_cases hrs : rs = []
    · rw [if_pos hrs] at h; exact absurd h (by simp)
    · rw [if_neg hrs] at h
      cases hp : prepTasks (sanitize G) oracle tol with
      | none => rw [hp] at h; exact absurd h (by simp)
      | some res =>
        cases res with
        | ok tasks =>
          rw [hp] at h
          dsimp only at h
          split at h <;> exact absurd h (by simp)
        | error msg =>
          rw [hp] at h
          injection h with h
          unfold prepTasks at hp
          cases hce : calculateEigensystem (sanitize G) oracle with
          | none => rw [hce] at hp; exact absurd hp (by simp)
          | some trip =>
            obtain ⟨lam, u, v⟩ := trip
            rw [hce] at hp
            dsimp only at hp
            injection hp with hp
            cases hcs : computeScores (sanitize G).edges (sanitize G).nodes
                lam u v (dotQ v u) tol with
            | ok l => rw [hcs] at hp; exact absurd hp (by simp [Except.map])
            | error m2 =>
              rw [hcs] at hp
              injection hp with hp
              rw [hp, h] at hcs
              exact computeScores_ne_valueError _ _ _ _ _ _ _ hcs

/-! ## Claim C2 (corrected): counterexample -/

/-- C2 counterexample: on the 4-node path with ratio 1/2 (two chained merges),
`coarsen` (= `coarsen_old`) names the merged supernode by nesting
(`((0, 1), 2)`), while the checkpointed form names it by the flat sorted tuple
(`(0, 1, 2)`).  The returned graphs therefore do *not* have the same node set:
the nested identifier is a node of the first result only. -/
theorem c2_node_set_differs_cx :
    coarsen pathGraph4 (1/2) onesEig4 defaultTol =
      .ok ⟨[.orig 3, .pair (.pair (.orig 0) (.orig 1)) (.orig 2)],
           [(.pair (.pair (.orig 0) (.orig 1)) (.orig 2), .orig 3)]⟩ ∧
    (coarsenWithCheckpoints pathGraph4 [1/2] onesEig4 defaultTol).map
        (fun m => resLookup m (1/2)) =
      .ok (some ⟨[.orig 3, .flat [0, 1, 2]],
                 [(.flat [0, 1, 2], .orig 3)]⟩) ∧
    NodeId.pair (.pair (.orig 0) (.orig 1)) (.orig 2) ∈
      ([.orig 3, .pair (.pair (.orig 0) (.orig 1)) (.orig 2)] : List NodeId) ∧
    NodeId.pair (.pair (.orig 0) (.orig 1)) (.orig 2) ∉
      ([.orig 3, .flat [0, 1, 2]] : List NodeId) := by
  decide

/-! ## Claim C3 (corrected): counterexample -/

/-- C3 counterexample: the scoring loop iterates over `G_coarse.edges()` only.
On the sanitized 3-node path, the non-adjacent pair (0, 2) has a denominator
well above the tolerance, yet no candidate is emitted for it: the candidate
list covers existing edges only, not all unordered node pairs. -/
theorem c3_only_edges_scored_cx :
    (computeScores (sanitize pathGraph3).edges (sanitize pathGraph3).nodes 2
        [1, 1, 1] [1, 1, 1] (dotQ [1, 1, 1] [1, 1, 1]) defaultTol).map
        (fun l => (l.map (·.2)).contains (.orig 0, .orig 2)) = .ok false ∧
    scorePair (sanitize pathGraph3).nodes 2 [1, 1, 1] [1, 1, 1]
        (dotQ [1, 1, 1] [1, 1, 1]) (.orig 0, .orig 2) = .ok (0, 1) ∧
    |(1 : ℚ)| > defaultTol := by
  decide

/-- C3 amended: the candidate list contains a scored entry exactly for the
(sorted pairs of the) *existing edges* of the sanitized graph whose
denominator clears the tolerance — not for all unordered pairs of distinct
nodes. -/
theorem c3_candidates_cover_edges (edges : List (NodeId × NodeId))
    (nl : List NodeId) (lam : ℚ) (u v : List ℚ) (vd tol : ℚ)
    (l : List (ℚ × (NodeId × NodeId)))
    (h : computeScores edges nl lam u v vd tol = .ok l) :
    (∀ p ∈ l.map (·.2), ∃ e ∈ edges, pySortPair e.1 e.2 = p) ∧
    (∀ e ∈ edges, ∀ n d,
      scorePair nl lam u v vd (pySortPair e.1 e.2) = .ok (n, d) →
      |d| > tol → pySortPair e.1 e.2 ∈ l.map (·.2)) := by
  constructor
  · intro p hp
    obtain ⟨x, hx, hx2⟩ := List.mem_map.mp hp
    obtain ⟨s, p'⟩ := x
    dsimp only at hx2
    subst hx2
    obtain ⟨e, he, hpp, _⟩ := (computeScores_ok_mem h s p').mp hx
    exact ⟨e, he, hpp⟩
  · intro e he n d hsp htol
    have hmem : (n / d, pySortPair e.1 e.2) ∈ l :=
      (computeScores_ok_mem h (n / d) (pySortPair e.1 e.2)).mpr
        ⟨e, he, rfl, n, d, hsp, htol, rfl⟩
    exact List.mem_map.mpr ⟨(n / d, pySortPair e.1 e.2), hmem, rfl⟩

/-- C3 amended, witness at the 3-node path. -/
theorem c3_candidates_witness :
    (∀ p ∈ c3L.map (·.2), ∃ e ∈ (sanitize pathGraph3).edges,
      pySortPair e.1 e.2 = p) ∧
    (∀ e ∈ (sanitize pathGraph3).edges, ∀ n d,
      scorePair (sanitize pathGraph3).nodes 2 [1, 1, 1] [1, 1, 1]
        (dotQ [1, 1, 1] [1, 1, 1]) (pySortPair e.1 e.2) = .ok (n, d) →
      |d| > defaultTol → pySortPair e.1 e.2 ∈ c3L.map (·.2)) :=
  c3_candidates_cover_edges (sanitize pathGraph3).edges
    (sanitize pathGraph3).nodes 2 [1, 1, 1] [1, 1, 1]
    (dotQ [1, 1, 1] [1, 1, 1]) defaultTol c3L (by decide)

/-! ## Claim C4 (corrected): counterexample -/

/-- C4 counterexample: the task list consumed by the merge loop is sorted
*descending* (`sorted(..., reverse=True)`), not ascending: under this
eigensystem the scores are −1/3 for edge (0,1) and 1 for edge (1,2), and the
consumed list puts 1 first. -/
theorem c4_descending_not_ascending_cx :
    (computeScores (sanitize pathGraph3).edges (sanitize pathGraph3).nodes 1
        [1, 2, 3] [1, 3, 2] (dotQ [1, 3, 2] [1, 2, 3]) defaultTol).map
        pySortDesc =
      .ok [(1, (.orig 1, .orig 2)), (-(1/3), (.orig 0, .orig 1))] ∧
    ¬((1 : ℚ) ≤ -(1/3)) := by
  decide

/-- C4 amended: the candidate list consumed by the merge loop
(`sorted(scores, key=..., reverse=True)`, modelled by `pySortDesc`) is sorted
in *descending* order of score, and candidates with equal scores keep the
scorer's emission order (edge-iteration order) because the sort is stable —
they are not re-ordered by the pairs' lexicographic order. -/
theorem c4_sorted_descending_stable (l : List (ℚ × (NodeId × NodeId))) :
    (pySortDesc l).Pairwise (fun a b => b.1 ≤ a.1) ∧
    ∀ c : ℚ, (pySortDesc l).filter (fun e => e.1 = c) =
      l.filter (fun e => e.1 = c) := by
  obtain ⟨hpw, hfil⟩ := pySortDesc_aux l [] (by simp)
  exact ⟨hpw, fun c => by simpa using hfil c⟩

/-! ## Claim C5 (corrected): counterexample -/

/-- C5 counterexample: the emitted score is the *signed* quotient
`numerator / denominator` — the code takes no absolute value.  Under this
eigensystem both edges of the 3-node path receive the score −2, which is
negative, hence not `|numerator / denominator|`. -/
theorem c5_signed_score_cx :
    (computeScores (sanitize pathGraph3).edges (sanitize pathGraph3).nodes 1
        [1, 2, 1] [1, 3, 1] (dotQ [1, 3, 1] [1, 2, 1]) defaultTol).map
        (fun l => l.map (·.1)) = .ok [-2, -2] ∧
    ¬((0 : ℚ) ≤ -2) := by
  decide

/-- C5 amended: for every pair considered by the spectral scorer, if the
denominator clears the tolerance the emitted score is the *signed* quotient
`numerator / denominator` (no absolute value is taken), and otherwise the
pair is excluded from the candidate list (no error). -/
theorem c5_signed_quotient_scores (edges : List (NodeId × NodeId))
    (nl : List NodeId) (lam : ℚ) (u v : List ℚ) (vd tol : ℚ)
    (l : List (ℚ × (NodeId × NodeId)))
    (h : computeScores edges nl lam u v vd tol = .ok l) :
    (∀ s p, (s, p) ∈ l → ∃ n d, scorePair nl lam u v vd p = .ok (n, d) ∧
      |d| > tol ∧ s = n / d) ∧
    (∀ p n d, scorePair nl lam u v vd p = .ok (n, d) → ¬(|d| > tol) →
      ∀ s, (s, p) ∉ l) := by
  constructor
  · intro s p hmem
    obtain ⟨e, _, _, n, d, hsp, htol, hs⟩ := (computeScores_ok_mem h s p).mp hmem
    exact ⟨n, d, hsp, htol, hs⟩
  · intro p n d hsp htol s hmem
    obtain ⟨e, _, _, n', d', hsp', htol', _⟩ := (computeScores_ok_mem h s p).mp hmem
    rw [hsp] at hsp'
    injection hsp' with hsp'
    injection hsp' with hn hd
    rw [← hd] at htol'
    exact htol htol'

/-- C5 amended, witness at the 3-node path. -/
theorem c5_signed_quotient_witness :
    (∀ s p, (s, p) ∈ c5L → ∃ n d,
      scorePair (sanitize pathGraph3).nodes 1 [1, 2, 1] [1, 3, 1]
        (dotQ [1, 3, 1] [1, 2, 1]) p = .ok (n, d) ∧
      |d| > defaultTol ∧ s = n / d) ∧
    (∀ p n d, scorePair (sanitize pathGraph3).nodes 1 [1, 2, 1] [1, 3, 1]
        (dotQ [1, 3, 1] [1, 2, 1]) p = .ok (n, d) → ¬(|d| > defaultTol) →
      ∀ s, (s, p) ∉ c5L) :=
  c5_signed_quotient_scores (sanitize pathGraph3).edges
    (sanitize pathGraph3).nodes 1 [1, 2, 1] [1, 3, 1]
    (dotQ [1, 3, 1] [1, 2, 1]) defaultTol c5L (by decide)

/-! ## Claim C6 (corrected): counterexample -/

/-- C6 counterexample: in `coarsen` (= `coarsen_old`, via `_contract_pair`)
the supernode identifier is the nested pair of the two merged identifiers, so
it depends on the merge order.  Two runs on the 3-node path (with eigensystems
reversing the merge order) both produce the single supernode with member set
{0, 1, 2}, but with different identifiers `((0,1),2)` vs `(0,(1,2))` — the
identifier is not a function of the membership. -/
theorem c6_order_dependent_id_cx :
    (coarsen pathGraph3 (2/3) eig3A defaultTol).map Graph.nodes =
      .ok [.pair (.pair (.orig 0) (.orig 1)) (.orig 2)] ∧
    (coarsen pathGraph3 (2/3) eig3B defaultTol).map Graph.nodes =
      .ok [.pair (.orig 0) (.pair (.orig 1) (.orig 2))] ∧
    (NodeId.pair (.pair (.orig 0) (.orig 1)) (.orig 2)).support =
      (NodeId.pair (.orig 0) (.pair (.orig 1) (.orig 2))).support ∧
    NodeId.pair (.pair (.orig 0) (.orig 1)) (.orig 2) ≠
      .pair (.orig 0) (.pair (.orig 1) (.orig 2)) := by
  decide

/-- Every task list produced by the shared scoring pass consists of pairs of
original labels of the sanitized graph. -/
theorem tasksWf_of_prepTasks {G : Graph} {oracle : Option EigSys} {tol : ℚ}
    {tasks : List (ℚ × (NodeId × NodeId))}
    (hwf : wfInput G)
    (hp : prepTasks (sanitize G) oracle tol = some (.ok tasks)) :
    TasksWf (origLabels (sanitize G)) tasks := by
  intro t ht
  unfold prepTasks at hp
  cases hce : calculateEigensystem (sanitize G) oracle with
  | none => rw [hce] at hp; cases hp
  | some trip =>
    obtain ⟨lam, u, v⟩ := trip
    rw [hce] at hp
    dsimp only at hp
    injection hp with hp
    cases hcs : computeScores (sanitize G).edges (sanitize G).nodes lam u v
        (dotQ v u) tol with
    | error msg => rw [hcs] at hp; cases hp
    | ok l =>
      rw [hcs] at hp
      injection hp with hp
      rw [← hp] at ht
      have ht2 := mem_pySortDesc.mp ht
      obtain ⟨s, p⟩ := t
      obtain ⟨e, he, hpp, _⟩ := (computeScores_ok_mem hcs s p).mp ht2
      obtain ⟨h1, h2⟩ := sanitize_ewf G e he
      obtain ⟨a, ha⟩ := isOrig_exists (sanitize_orig hwf e.1 h1)
      obtain ⟨b, hb⟩ := isOrig_exists (sanitize_orig hwf e.2 h2)
      have hma : a ∈ origLabels (sanitize G) := mem_origLabels.mpr (ha ▸ h1)
      have hmb : b ∈ origLabels (sanitize G) := mem_origLabels.mpr (hb ▸ h2)
      rw [ha, hb] at hpp
      have hred : pySortPair (NodeId.orig a) (NodeId.orig b) =
          if a ≤ b then (NodeId.orig a, NodeId.orig b)
          else (NodeId.orig b, NodeId.orig a) := rfl
      rw [hred] at hpp
      by_cases hab : a ≤ b
      · rw [if_pos hab] at hpp
        exact ⟨a, b, hpp.symm, hma, hmb⟩
      · rw [if_neg hab] at hpp
        exact ⟨b, a, hpp.symm, hmb, hma⟩

theorem memOf_spec {orig : List Int} {st : LoopState} (inv : RegInv orig st)
    {i : Int} (hi : i ∈ orig) :
    ∃ p ∈ st.reg, st.nmap i = p.1 ∧ i ∈ p.2 ∧ memOf st i = p.2 := by
  obtain ⟨p, hp, hm, hip⟩ := inv.maps i hi
  refine ⟨p, hp, hm, hip, ?_⟩
  unfold memOf
  rw [hm, regFind_eq inv.keys hp]
  rfl

/-- Two original labels share a supernode iff one lies in the other's member
set. -/
theorem memOf_nmap_eq_iff {orig : List Int} {st : LoopState}
    (inv : RegInv orig st) {i j : Int} (hi : i ∈ orig) (hj : j ∈ orig) :
    st.nmap i = st.nmap j ↔ j ∈ memOf st i := by
  obtain ⟨pa, hpa, hmi, hia, hmema⟩ := memOf_spec inv hi
  obtain ⟨pb, hpb, hmj, hjb, hmemb⟩ := memOf_spec inv hj
  constructor
  · intro h
    have hab : pb = pa :=
      key_inj inv.keys hpb hpa (hmj.symm.trans (h.symm.trans hmi))
    rw [hmema]
    exact hab ▸ hjb
  · intro h
    rw [hmema] at h
    by_cases hab : pa = pb
    · rw [hmi, hmj, hab]
    · exact absurd hjb (pairwise_disj_of_ne inv.disj hpa hpb hab j h)

/-- The new identifier of a merge is fresh relative to the surviving registry
entries. -/
theorem merge_fresh {orig : List Int} {st : LoopState} (flat : Bool)
    {i j : Int} (inv : RegInv orig st) (hi : i ∈ orig) (hj : j ∈ orig)
    (hne : st.nmap i ≠ st.nmap j) :
    ∀ q ∈ regErase (regErase st.reg (st.nmap i)) (st.nmap j),
      q.1 ≠ (if flat then NodeId.flat (setUnion (memOf st i) (memOf st j))
             else NodeId.pair (st.nmap i) (st.nmap j)) := by
  obtain ⟨pa, hpa, hmi, hia, hmema⟩ := memOf_spec inv hi
  obtain ⟨pb, hpb, hmj, hjb, hmemb⟩ := memOf_spec inv hj
  have hpane : pa ≠ pb := fun h => hne (by rw [hmi, hmj, h])
  obtain ⟨xa, hxa⟩ := List.exists_mem_of_ne_nil _ (inv.nonnil pa hpa)
  have hsupNew :
      (if flat then NodeId.flat (setUnion (memOf st i) (memOf st j))
       else NodeId.pair (st.nmap i) (st.nmap j)).support =
        setUnion pa.2 pb.2 := by
    rw [hmema, hmemb]
    split
    · rfl
    · show setUnion (st.nmap i).support (st.nmap j).support = _
      rw [hmi, hmj, inv.supp pa hpa, inv.supp pb hpb]
  intro q hq hqe
  obtain ⟨hq', hqj⟩ := mem_regErase.mp hq
  obtain ⟨hqreg, hqi⟩ := mem_regErase.mp hq'
  have hsupq : q.2 = setUnion pa.2 pb.2 := by
    rw [← inv.supp q hqreg, hqe, hsupNew]
  by_cases hqa : q = pa
  · exact hqi (hqa ▸ hmi.symm)
  · have hxaq : xa ∈ q.2 := by
      rw [hsupq]; exact mem_setUnion.mpr (Or.inl hxa)
    exact pairwise_disj_of_ne inv.disj hqreg hpa hqa xa hxaq hxa

/-- Each merge shrinks the registry by exactly one entry. -/
theorem mergeStep_reg_length {orig : List Int} {st : LoopState} (flat : Bool)
    (ckpt : Int → Option ℚ) {i j : Int}
    (inv : RegInv orig st) (hi : i ∈ orig) (hj : j ∈ orig)
    (hne : st.nmap i ≠ st.nmap j) :
    (mergeStep flat ckpt st (st.nmap i) (st.nmap j)).reg.length + 1 =
      st.reg.length := by
  obtain ⟨pa, hpa, hmi, hia, hmema⟩ := memOf_spec inv hi
  obtain ⟨pb, hpb, hmj, hjb, hmemb⟩ := memOf_spec inv hj
  have hpane : pa ≠ pb := fun h => hne (by rw [hmi, hmj, h])
  have hreg : (mergeStep flat ckpt st (st.nmap i) (st.nmap j)).reg =
      regSet (regErase (regErase st.reg (st.nmap i)) (st.nmap j))
        (if flat then NodeId.flat (setUnion (memOf st i) (memOf st j))
         else NodeId.pair (st.nmap i) (st.nmap j))
        (setUnion (memOf st i) (memOf st j)) := rfl
  rw [hreg, regSet_append (merge_fresh flat inv hi hj hne),
    List.length_append]
  have h2 : (regErase (regErase st.reg (st.nmap i)) (st.nmap j)) =
      regErase (regErase st.reg pa.1) pb.1 := by rw [hmi, hmj]
  rw [h2]
  have hkeys1 : ((regErase st.reg pa.1).map Prod.fst).Nodup := by
    rw [map_fst_regErase]
    exact inv.keys.filter _
  have hpbne : pb.1 ≠ pa.1 :=
    fun h => hpane (key_inj inv.keys hpb hpa h).symm
  have hpb' : pb ∈ regErase st.reg pa.1 := mem_regErase.mpr ⟨hpb, hpbne⟩
  have e1 := regErase_length inv.keys hpa
  have e2 := regErase_length hkeys1 hpb'
  simp only [List.length_singleton]
  omega


/-- The member set of any original label after a merge: it becomes the merged
union when the label lies in it, and is unchanged otherwise. -/
theorem memOf_mergeStep {orig : List Int} {st : LoopState} (flat : Bool)
    (ckpt : Int → Option ℚ) {i j : Int}
    (inv : RegInv orig st) (hi : i ∈ orig) (hj : j ∈ orig)
    (hne : st.nmap i ≠ st.nmap j) {x : Int} (hx : x ∈ orig) :
    memOf (mergeStep flat ckpt st (st.nmap i) (st.nmap j)) x =
      if x ∈ setUnion (memOf st i) (memOf st j)
      then setUnion (memOf st i) (memOf st j)
      else memOf st x := by
  obtain ⟨pa, hpa, hmi, hia, hmema⟩ := memOf_spec inv hi
  obtain ⟨pb, hpb, hmj, hjb, hmemb⟩ := memOf_spec inv hj
  have hfreshq := merge_fresh flat inv hi hj hne
  have hreg0 : (mergeStep flat ckpt st (st.nmap i) (st.nmap j)).reg =
      regSet (regErase (regErase st.reg (st.nmap i)) (st.nmap j))
        (if flat then NodeId.flat (setUnion (memOf st i) (memOf st j))
         else NodeId.pair (st.nmap i) (st.nmap j))
        (setUnion (memOf st i) (memOf st j)) := rfl
  have hnm : (mergeStep flat ckpt st (st.nmap i) (st.nmap j)).nmap =
      fun y => if y ∈ setUnion (memOf st i) (memOf st j) then
          (if flat then NodeId.flat (setUnion (memOf st i) (memOf st j))
           else NodeId.pair (st.nmap i) (st.nmap j))
        else st.nmap y := rfl
  by_cases hxC : x ∈ setUnion (memOf st i) (memOf st j)
  · rw [if_pos hxC]
    unfold memOf
    have hnx : (mergeStep flat ckpt st (st.nmap i) (st.nmap j)).nmap x =
        (if flat then NodeId.flat (setUnion (memOf st i) (memOf st j))
         else NodeId.pair (st.nmap i) (st.nmap j)) := by
      rw [hnm]; exact if_pos hxC
    rw [hnx, hreg0, regSet_append hfreshq,
      regFind_append_right (regFind_none hfreshq)]
    simp only [regFind, if_true, Option.getD_some]
    rfl
  · rw [if_neg hxC]
    unfold memOf
    have hnx : (mergeStep flat ckpt st (st.nmap i) (st.nmap j)).nmap x =
        st.nmap x := by
      rw [hnm]; exact if_neg hxC
    rw [hnx, hreg0, regSet_append hfreshq]
    obtain ⟨q, hq, hqm, hqx, hqmem⟩ := memOf_spec inv hx
    have hqa : q ≠ pa := by
      intro h
      exact hxC (mem_setUnion.mpr (Or.inl (by rw [hmema]; exact h ▸ hqx)))
    have hqb : q ≠ pb := by
      intro h
      exact hxC (mem_setUnion.mpr (Or.inr (by rw [hmemb]; exact h ▸ hqx)))
    have hxi : st.nmap x ≠ st.nmap i := by
      intro h
      exact hqa (key_inj inv.keys hq hpa ((hqm.symm.trans h).trans hmi))
    have hxj : st.nmap x ≠ st.nmap j := by
      intro h
      exact hqb (key_inj inv.keys hq hpb ((hqm.symm.trans h).trans hmj))
    have hfind : regFind (regErase (regErase st.reg (st.nmap i)) (st.nmap j))
        (st.nmap x) = some q.2 := by
      rw [regFind_regErase_ne hxj, regFind_regErase_ne hxi, hqm]
      exact regFind_eq inv.keys hq
    rw [regFind_append_left hfind, hqm, regFind_eq inv.keys hq]

/-- A nested-naming and a flat-naming merge of the same pair, from
simulation-related states, stay simulation-related. -/
theorem sim_mergeStep {orig : List Int} {st1 st2 : LoopState}
    (ck1 ck2 : Int → Option ℚ) {i j : Int}
    (inv1 : RegInv orig st1) (inv2 : RegInv orig st2)
    (hdone : st1.done = st2.done) (huniq : st1.uniq = st2.uniq)
    (hlen : st1.reg.length = st2.reg.length)
    (hmem : ∀ x ∈ orig, memOf st1 x = memOf st2 x)
    (hi : i ∈ orig) (hj : j ∈ orig)
    (hne1 : st1.nmap i ≠ st1.nmap j) (hne2 : st2.nmap i ≠ st2.nmap j) :
    SimStates orig (mergeStep false ck1 st1 (st1.nmap i) (st1.nmap j))
      (mergeStep true ck2 st2 (st2.nmap i) (st2.nmap j)) := by
  refine ⟨?_, ?_, ?_, ?_⟩
  · show st1.done + 1 = st2.done + 1
    rw [hdone]
  · show st1.uniq = st2.uniq
    exact huniq
  · have l1 := mergeStep_reg_length false ck1 inv1 hi hj hne1
    have l2 := mergeStep_reg_length true ck2 inv2 hi hj hne2
    omega
  · intro x hx
    rw [memOf_mergeStep false ck1 inv1 hi hj hne1 hx,
      memOf_mergeStep true ck2 inv2 hi hj hne2 hx,
      hmem i hi, hmem j hj, hmem x hx]

/-- A merge-loop iteration reduces to an explicit case split once the task
pair is known to consist of two original labels. -/
theorem loopStep_eq (flat : Bool) (needed : Int) (ckpt : Int → Option ℚ)
    (st : LoopState) (t : ℚ × (NodeId × NodeId)) {i j : Int}
    (ht2 : t.2 = (.orig i, .orig j)) :
    loopStep flat needed ckpt st t =
      if needed ≤ st.done then st
      else if t.2 ∈ st.uniq then st
      else if st.nmap i = st.nmap j
        then { st with uniq := t.2 :: st.uniq }
        else mergeStep flat ckpt { st with uniq := t.2 :: st.uniq }
          (st.nmap i) (st.nmap j) := by
  unfold loopStep
  rw [ht2]
  rfl

/-- One iteration on the same task keeps a nested-naming and a flat-naming
state simulation-related. -/
theorem sim_loopStep {orig : List Int} {st1 st2 : LoopState} (needed : Int)
    (ck1 ck2 : Int → Option ℚ) {t : ℚ × (NodeId × NodeId)}
    (inv1 : RegInv orig st1) (inv2 : RegInv orig st2)
    (hsim : SimStates orig st1 st2)
    (ht : ∃ i j : Int, t.2 = (.orig i, .orig j) ∧ i ∈ orig ∧ j ∈ orig) :
    SimStates orig (loopStep false needed ck1 st1 t)
      (loopStep true needed ck2 st2 t) := by
  obtain ⟨hdone, huniq, hlen, hmem⟩ := hsim
  obtain ⟨i, j, ht2, hi, hj⟩ := ht
  rw [loopStep_eq false needed ck1 st1 t ht2,
    loopStep_eq true needed ck2 st2 t ht2]
  by_cases h1 : needed ≤ st1.done
  · have h1b : needed ≤ st2.done := by rw [← hdone]; exact h1
    rw [if_pos h1, if_pos h1b]
    exact ⟨hdone, huniq, hlen, hmem⟩
  · have h1b : ¬ needed ≤ st2.done := by rw [← hdone]; exact h1
    rw [if_neg h1, if_neg h1b]
    by_cases h2 : t.2 ∈ st1.uniq
    · have h2b : t.2 ∈ st2.uniq := by rw [← huniq]; exact h2
      rw [if_pos h2, if_pos h2b]
      exact ⟨hdone, huniq, hlen, hmem⟩
    · have h2b : t.2 ∉ st2.uniq := by rw [← huniq]; exact h2
      rw [if_neg h2, if_neg h2b]
      by_cases hc : st1.nmap i = st1.nmap j
      · have hc2 : st2.nmap i = st2.nmap j := by
          rw [memOf_nmap_eq_iff inv2 hi hj, ← hmem i hi]
          exact (memOf_nmap_eq_iff inv1 hi hj).mp hc
        rw [if_pos hc, if_pos hc2]
        refine ⟨hdone, ?_, hlen, hmem⟩
        show t.2 :: st1.uniq = t.2 :: st2.uniq
        rw [huniq]
      · have hc2 : ¬ st2.nmap i = st2.nmap j := by
          intro h
          apply hc
          rw [memOf_nmap_eq_iff inv1 hi hj, hmem i hi]
          exact (memOf_nmap_eq_iff inv2 hi hj).mp h
        rw [if_neg hc, if_neg hc2]
        have inv1u : RegInv orig { st1 with uniq := t.2 :: st1.uniq } :=
          ⟨inv1.supp, inv1.nonnil, inv1.sorted, inv1.keys, inv1.disj,
           inv1.coverA, inv1.coverB, inv1.maps, inv1.gnodes, inv1.ewf⟩
        have inv2u : RegInv orig { st2 with uniq := t.2 :: st2.uniq } :=
          ⟨inv2.supp, inv2.nonnil, inv2.sorted, inv2.keys, inv2.disj,
           inv2.coverA, inv2.coverB, inv2.maps, inv2.gnodes, inv2.ewf⟩
        have huniq2 : ({ st1 with uniq := t.2 :: st1.uniq } : LoopState).uniq =
            ({ st2 with uniq := t.2 :: st2.uniq } : LoopState).uniq := by
          show t.2 :: st1.uniq = t.2 :: st2.uniq
          rw [huniq]
        exact sim_mergeStep ck1 ck2 inv1u inv2u hdone huniq2 hlen hmem hi hj
          hc hc2

/-- The two merge loops over the same task list keep their states
simulation-related. -/
theorem sim_runLoop {orig : List Int} (needed : Int)
    (ck1 ck2 : Int → Option ℚ) {st1 st2 : LoopState}
    (tasks : List (ℚ × (NodeId × NodeId))) (hw : TasksWf orig tasks)
    (inv1 : RegInv orig st1) (inv2 : RegInv orig st2)
    (hsim : SimStates orig st1 st2) :
    SimStates orig (runLoop false needed ck1 st1 tasks)
      (runLoop true needed ck2 st2 tasks) := by
  induction tasks generalizing st1 st2 with
  | nil => exact hsim
  | cons t ts ih =>
    exact ih (fun t' ht' => hw t' (List.mem_cons_of_mem t ht'))
      (regInv_loopStep false needed ck1 inv1 (hw t (List.mem_cons_self t ts)))
      (regInv_loopStep true needed ck2 inv2 (hw t (List.mem_cons_self t ts)))
      (sim_loopStep needed ck1 ck2 inv1 inv2 hsim
        (hw t (List.mem_cons_self t ts)))

/-- The working graph always has exactly one node per registry entry. -/
theorem nodes_length_eq_reg {orig : List Int} {st : LoopState}
    (inv : RegInv orig st) : st.g.nodes.length = st.reg.length := by
  rw [inv.gnodes, List.length_map]

/-- `contractions_to_checkpoint` for a single requested ratio. -/
theorem ckptLookup_singleton (n : Nat) (r : ℚ) (c : Int) :
    ckptLookup n [r] c = if ckptCount n r = c then some r else none := by
  unfold ckptLookup
  by_cases h : ckptCount n r = c
  · rw [if_pos h]
    simp [List.filter_cons, h]
  · rw [if_neg h]
    simp [List.filter_cons, h]

/-- A successful dict lookup in `results` exhibits a matching entry. -/
theorem resLookup_mem {l : List (ℚ × Graph)} {r : ℚ} {g : Graph}
    (h : resLookup l r = some g) : (r, g) ∈ l := by
  induction l with
  | nil => cases h
  | cons p rest ih =>
    simp only [resLookup] at h
    split at h
    · next heq =>
      injection h with h2
      have hpq : (r, g) = p := by rw [← heq, ← h2]
      rw [hpq]
      exact List.mem_cons_self p rest
    · exact List.mem_cons_of_mem p (ih h)

/-- Snapshot invariant of the single-ratio checkpointed merge: any `results`
entry for the ratio was taken at the final contraction count, with the current
working graph — preserved by a merge. -/
theorem snap_mergeStep {needed : Int} {n : Nat} {alpha : ℚ} {st : LoopState}
    (hcc : ckptCount n alpha = needed) (sa sb : NodeId)
    (hlt : st.done < needed)
    (hq : ∀ p ∈ st.results, p.1 = alpha → needed ≤ st.done ∧ p.2 = st.g) :
    ∀ p ∈ (mergeStep true (ckptLookup n [alpha]) st sa sb).results,
      p.1 = alpha →
        needed ≤ (mergeStep true (ckptLookup n [alpha]) st sa sb).done ∧
        p.2 = (mergeStep true (ckptLookup n [alpha]) st sa sb).g := by
  intro p hp hpa
  have hdone : (mergeStep true (ckptLookup n [alpha]) st sa sb).done =
      st.done + 1 := rfl
  have hres : (mergeStep true (ckptLookup n [alpha]) st sa sb).results =
      match ckptLookup n [alpha] (st.done + 1) with
      | some r =>
        if st.results.any (fun q => q.1 = r) then st.results
        else st.results ++
          [(r, (mergeStep true (ckptLookup n [alpha]) st sa sb).g)]
      | none => st.results := rfl
  rw [ckptLookup_singleton] at hres
  by_cases hc : ckptCount n alpha = st.done + 1
  · rw [if_pos hc] at hres
    dsimp only at hres
    by_cases hany : st.results.any (fun q => q.1 = alpha) = true
    · rw [if_pos hany] at hres
      rw [hres] at hp
      exact absurd (hq p hp hpa).1 (not_le.mpr hlt)
    · rw [if_neg hany] at hres
      rw [hres] at hp
      rcases List.mem_append.mp hp with hL | hR
      · exact absurd (hq p hL hpa).1 (not_le.mpr hlt)
      · have hpe := List.mem_singleton.mp hR
        constructor
        · rw [hdone]
          omega
        · rw [hpe]
  · rw [if_neg hc] at hres
    dsimp only at hres
    rw [hres] at hp
    exact absurd (hq p hp hpa).1 (not_le.mpr hlt)

/-- The snapshot invariant is preserved by a loop iteration. -/
theorem snap_loopStep {needed : Int} {n : Nat} {alpha : ℚ} {st : LoopState}
    (hcc : ckptCount n alpha = needed) (t : ℚ × (NodeId × NodeId))
    (hq : ∀ p ∈ st.results, p.1 = alpha → needed ≤ st.done ∧ p.2 = st.g) :
    ∀ p ∈ (loopStep true needed (ckptLookup n [alpha]) st t).results,
      p.1 = alpha →
        needed ≤ (loopStep true needed (ckptLookup n [alpha]) st t).done ∧
        p.2 = (loopStep true needed (ckptLookup n [alpha]) st t).g := by
  unfold loopStep
  split
  · exact hq
  next h1 =>
    split
    · exact hq
    next =>
      dsimp only
      split
      · exact hq
      next =>
        exact snap_mergeStep hcc _ _ (not_le.mp h1) hq

/-- The snapshot invariant holds after the whole merge loop. -/
theorem snap_runLoop {needed : Int} {n : Nat} {alpha : ℚ}
    (hcc : ckptCount n alpha = needed) (st : LoopState)
    (tasks : List (ℚ × (NodeId × NodeId)))
    (hq : ∀ p ∈ st.results, p.1 = alpha → needed ≤ st.done ∧ p.2 = st.g) :
    ∀ p ∈ (runLoop true needed (ckptLookup n [alpha]) st tasks).results,
      p.1 = alpha →
        needed ≤ (runLoop true needed (ckptLookup n [alpha]) st tasks).done ∧
        p.2 = (runLoop true needed (ckptLookup n [alpha]) st tasks).g := by
  induction tasks generalizing st with
  | nil => exact hq
  | cons t ts ih => exact ih _ (snap_loopStep hcc t hq)

/-- A sanitized graph with fewer than two nodes has no edges (all its edges
join existing nodes and none is a self-loop). -/
theorem sanitize_small_edges {G : Graph}
    (hsmall : (sanitize G).nodes.length < 2) : (sanitize G).edges = [] := by
  by_contra hne
  obtain ⟨e, he⟩ := List.exists_mem_of_ne_nil _ hne
  obtain ⟨h1, h2⟩ := sanitize_ewf G e he
  have hl := sanitize_noloop G e he
  rcases hn : (sanitize G).nodes with _ | ⟨x, _ | ⟨y, ys⟩⟩
  · rw [hn] at h1
    cases h1
  · rw [hn] at h1 h2
    have he1 : e.1 = x := by simpa using h1
    have he2 : e.2 = x := by simpa using h2
    exact hl (he1.trans he2.symm)
  · rw [hn] at hsmall
    simp only [List.length_cons] at hsmall
    omega

/-- On a sanitized graph with fewer than two nodes a successful scoring pass
yields no tasks. -/
theorem prepTasks_small {G : Graph} {oracle : Option EigSys} {tol : ℚ}
    {tasks : List (ℚ × (NodeId × NodeId))}
    (hsmall : (sanitize G).nodes.length < 2)
    (hp : prepTasks (sanitize G) oracle tol = some (.ok tasks)) :
    tasks = [] := by
  unfold prepTasks at hp
  cases hce : calculateEigensystem (sanitize G) oracle with
  | none =>
    rw [hce] at hp
    cases hp
  | some sys =>
    obtain ⟨lam, u, v⟩ := sys
    rw [hce] at hp
    dsimp only at hp
    rw [sanitize_small_edges hsmall] at hp
    simp only [computeScores] at hp
    injection hp with hp1
    injection hp1 with hp2
    exact hp2.symm

/-- An eigensolver failure makes the checkpointed coarsener return the empty
mapping. -/
theorem ckpt_prep_none {G : Graph} {rs : List ℚ} {oracle : Option EigSys}
    {tol : ℚ} {m : List (ℚ × Graph)} (hne : rs ≠ [])
    (hp : prepTasks (sanitize G) oracle tol = none)
    (h2 : coarsenCkpt G rs oracle tol = .ok m) : m = [] := by
  unfold coarsenCkpt at h2
  dsimp only at h2
  rw [if_neg hne, hp] at h2
  dsimp only at h2
  injection h2 with h3
  exact h3.symm

/-- A scoring-pass exception propagates out of the checkpointed coarsener. -/
theorem ckpt_prep_error {G : Graph} {rs : List ℚ} {oracle : Option EigSys}
    {tol : ℚ} {msg : String} {m : List (ℚ × Graph)} (hne : rs ≠ [])
    (hp : prepTasks (sanitize G) oracle tol = some (.error msg))
    (h2 : coarsenCkpt G rs oracle tol = .ok m) : False := by
  unfold coarsenCkpt at h2
  dsimp only at h2
  rw [if_neg hne, hp] at h2
  dsimp only at h2
  exact Except.noConfusion h2

/-- For a single requested ratio, the graph looked up under that ratio in the
returned mapping is always the final working graph of the merge loop: a
snapshot is only ever taken at the final contraction count, after which every
iteration is a no-op, and otherwise the final fallback entry is returned. -/
theorem ckpt_singleton_final {G : Graph} {alpha : ℚ} {oracle : Option EigSys}
    {tol : ℚ} {m : List (ℚ × Graph)} {g2 : Graph}
    {tasks : List (ℚ × (NodeId × NodeId))}
    (hp : prepTasks (sanitize G) oracle tol = some (.ok tasks))
    (h2 : coarsenCkpt G [alpha] oracle tol = .ok m)
    (h3 : resLookup m alpha = some g2) :
    g2 = (runLoop true
        (((sanitize G).nodes.length : Int) -
          pyRound ((1 - alpha) * ((sanitize G).nodes.length : ℚ)))
        (ckptLookup (sanitize G).nodes.length [alpha])
        (initState (sanitize G)) tasks).g := by
  have hne : ([alpha] : List ℚ) ≠ [] := List.cons_ne_nil _ _
  have hded : ([alpha] : List ℚ).dedup = [alpha] := by
    rw [List.dedup_cons_of_not_mem (List.not_mem_nil alpha), List.dedup_nil]
  have hrs : pySortAsc (([alpha] : List ℚ).dedup) = [alpha] := by
    rw [hded]
    rfl
  unfold coarsenCkpt at h2
  dsimp only at h2
  rw [if_neg hne, hrs] at h2
  have hgl : ([alpha] : List ℚ).getLastD 0 = alpha := rfl
  rw [hgl, hp] at h2
  dsimp only at h2
  injection h2 with hm
  rw [← hm] at h3
  have hcc : ckptCount (sanitize G).nodes.length alpha =
      (((sanitize G).nodes.length : Int) -
        pyRound ((1 - alpha) * ((sanitize G).nodes.length : ℚ))) := rfl
  have hq := snap_runLoop hcc (initState (sanitize G)) tasks
    (fun p hp' _ => absurd hp' (List.not_mem_nil p))
  split at h3
  · exact (hq _ (resLookup_mem h3) rfl).2
  · rcases List.mem_append.mp (resLookup_mem h3) with hL | hR
    · exact (hq _ hL rfl).2
    · exact congrArg Prod.snd (List.mem_singleton.mp hR)

theorem canonId_of_two {l : List Int} {x y : Int} (hx : x ∈ l) (hy : y ∈ l)
    (hne : x ≠ y) : canonId l = .flat l := by
  cases l with
  | nil => cases hx
  | cons a rest =>
    cases rest with
    | nil =>
      rw [List.mem_singleton] at hx hy
      exact absurd (hx.trans hy.symm) hne
    | cons b rest2 => rfl

theorem canonKeys_initState {g : Graph}
    (horig : ∀ x ∈ g.nodes, x.isOrig = true) : CanonKeys (initState g) := by
  intro p hp
  obtain ⟨x, hx, hfe⟩ := List.mem_map.mp hp
  obtain ⟨n, rfl⟩ := isOrig_exists (horig x hx)
  rw [← hfe]
  rfl

/-- A flat-naming merge keeps every registry key canonical. -/
theorem canonKeys_mergeStep {orig : List Int} {st : LoopState}
    (ckpt : Int → Option ℚ) {i j : Int}
    (inv : RegInv orig st) (hck : CanonKeys st)
    (hi : i ∈ orig) (hj : j ∈ orig) (hne : st.nmap i ≠ st.nmap j) :
    CanonKeys (mergeStep true ckpt st (st.nmap i) (st.nmap j)) := by
  obtain ⟨pa, hpa, hmi, hia⟩ := inv.maps i hi
  obtain ⟨pb, hpb, hmj, hjb⟩ := inv.maps j hj
  have hfa : regFind st.reg (st.nmap i) = some pa.2 := by
    rw [hmi]; exact regFind_eq inv.keys hpa
  have hfb : regFind st.reg (st.nmap j) = some pb.2 := by
    rw [hmj]; exact regFind_eq inv.keys hpb
  have hpane : pa ≠ pb := fun h => hne (by rw [hmi, hmj, h])
  have hdab : ∀ x ∈ pa.2, x ∉ pb.2 :=
    pairwise_disj_of_ne inv.disj hpa hpb hpane
  obtain ⟨xa, hxa⟩ := List.exists_mem_of_ne_nil _ (inv.nonnil pa hpa)
  obtain ⟨xb, hxb⟩ := List.exists_mem_of_ne_nil _ (inv.nonnil pb hpb)
  have hfresh : ∀ q ∈ regErase (regErase st.reg (st.nmap i)) (st.nmap j),
      q.1 ≠ NodeId.flat (setUnion pa.2 pb.2) := by
    intro q hq hqe
    obtain ⟨hq', hqj⟩ := mem_regErase.mp hq
    obtain ⟨hqreg, hqi⟩ := mem_regErase.mp hq'
    have hsupq : q.2 = setUnion pa.2 pb.2 := by
      rw [← inv.supp q hqreg, hqe]
      rfl
    by_cases hqa : q = pa
    · subst hqa
      exact hqi (hmi.symm)
    · have hxaq : xa ∈ q.2 := by
        rw [hsupq]; exact mem_setUnion.mpr (Or.inl hxa)
      exact pairwise_disj_of_ne inv.disj hqreg hpa hqa xa hxaq hxa
  have hregSet : (mergeStep true ckpt st (st.nmap i) (st.nmap j)).reg =
      regErase (regErase st.reg (st.nmap i)) (st.nmap j) ++
        [(NodeId.flat (setUnion pa.2 pb.2), setUnion pa.2 pb.2)] := by
    show regSet (regErase (regErase st.reg (st.nmap i)) (st.nmap j))
        (if true then NodeId.flat
            (setUnion ((regFind st.reg (st.nmap i)).getD [])
              ((regFind st.reg (st.nmap j)).getD []))
         else NodeId.pair (st.nmap i) (st.nmap j))
        (setUnion ((regFind st.reg (st.nmap i)).getD [])
          ((regFind st.reg (st.nmap j)).getD [])) = _
    rw [hfa, hfb]
    simp only [Option.getD_some, if_pos]
    exact regSet_append hfresh
  intro p hp
  rw [hregSet] at hp
  rcases List.mem_append.mp hp with hp | hp
  · exact hck p (mem_regErase.mp (mem_regErase.mp hp).1).1
  · rw [List.mem_singleton.mp hp]
    show NodeId.flat (setUnion pa.2 pb.2) = canonId (setUnion pa.2 pb.2)
    have hxaC : xa ∈ setUnion pa.2 pb.2 := mem_setUnion.mpr (Or.inl hxa)
    have hxbC : xb ∈ setUnion pa.2 pb.2 := mem_setUnion.mpr (Or.inr hxb)
    have hxy : xa ≠ xb := fun h => hdab xa hxa (h ▸ hxb)
    rw [canonId_of_two hxaC hxbC hxy]

theorem canonKeys_loopStep {orig : List Int} {st : LoopState}
    (needed : Int) (ckpt : Int → Option ℚ) {t : ℚ × (NodeId × NodeId)}
    (inv : RegInv orig st) (hck : CanonKeys st)
    (ht : ∃ i j : Int, t.2 = (.orig i, .orig j) ∧ i ∈ orig ∧ j ∈ orig) :
    CanonKeys (loopStep true needed ckpt st t) := by
  obtain ⟨i, j, ht2, hi, hj⟩ := ht
  unfold loopStep
  split
  · exact hck
  · split
    · exact hck
    · rw [ht2]
      dsimp only
      have inv1 : RegInv orig
          { st with uniq := (NodeId.orig i, NodeId.orig j) :: st.uniq } :=
        ⟨inv.supp, inv.nonnil, inv.sorted, inv.keys, inv.disj, inv.coverA,
         inv.coverB, inv.maps, inv.gnodes, inv.ewf⟩
      have hck1 : CanonKeys
          { st with uniq := (NodeId.orig i, NodeId.orig j) :: st.uniq } := hck
      split
      · exact hck1
      · next hne => exact canonKeys_mergeStep ckpt inv1 hck1 hi hj hne

theorem canonKeys_runLoop {orig : List Int} (needed : Int)
    (ckpt : Int → Option ℚ) {st : LoopState}
    (tasks : List (ℚ × (NodeId × NodeId)))
    (hw : TasksWf orig tasks) (inv : RegInv orig st) (hck : CanonKeys st) :
    CanonKeys (runLoop true needed ckpt st tasks) := by
  induction tasks generalizing st with
  | nil => exact hck
  | cons t ts ih =>
    exact ih (fun t' ht' => hw t' (List.mem_cons_of_mem t ht'))
      (regInv_loopStep true needed ckpt inv (hw t (List.mem_cons_self t ts)))
      (canonKeys_loopStep needed ckpt inv hck (hw t (List.mem_cons_self t ts)))

/-- C6 amended: in the *checkpointed* entry point the supernode identifier is
the flat sorted tuple of the member labels — a canonical, deterministic
function of the membership — so across any two (flat-naming) runs on the same
graph, supernodes with the same member set have equal identifiers, regardless
of the merge order.  (`coarsen` itself violates the claim: its nested-pair
identifiers depend on the merge order — see the counterexample.) -/
theorem c6_flat_ids_canonical (G : Graph)
    (oracle1 oracle2 : Option EigSys) (tol1 tol2 : ℚ)
    (n1 n2 : Int) (ck1 ck2 : Int → Option ℚ)
    (ts1 ts2 : List (ℚ × (NodeId × NodeId))) (k1 k2 : ℕ)
    (hwf : wfInput G)
    (h1 : prepTasks (sanitize G) oracle1 tol1 = some (.ok ts1))
    (h2 : prepTasks (sanitize G) oracle2 tol2 = some (.ok ts2)) :
    ∀ p ∈ (runLoop true n1 ck1 (initState (sanitize G)) (ts1.take k1)).reg,
    ∀ q ∈ (runLoop true n2 ck2 (initState (sanitize G)) (ts2.take k2)).reg,
      (∀ x : Int, x ∈ p.2 ↔ x ∈ q.2) → p.1 = q.1 := by
  intro p hp q hq hmem
  have hw1 : TasksWf (origLabels (sanitize G)) (ts1.take k1) :=
    fun t ht => tasksWf_of_prepTasks hwf h1 t (List.mem_of_mem_take ht)
  have hw2 : TasksWf (origLabels (sanitize G)) (ts2.take k2) :=
    fun t ht => tasksWf_of_prepTasks hwf h2 t (List.mem_of_mem_take ht)
  have hinit := regInv_initState (sanitize_nodes_nodup G)
    (sanitize_orig hwf) (sanitize_ewf G)
  have hckinit := canonKeys_initState (sanitize_orig hwf)
  have inv1 := regInv_runLoop true n1 ck1 (ts1.take k1) hw1 hinit
  have inv2 := regInv_runLoop true n2 ck2 (ts2.take k2) hw2 hinit
  have hck1 := canonKeys_runLoop n1 ck1 (ts1.take k1) hw1 hinit hckinit
  have hck2 := canonKeys_runLoop n2 ck2 (ts2.take k2) hw2 hinit hckinit
  have hs1 := inv1.sorted p hp
  have hs2 := inv2.sorted q hq
  haveI : IsAntisymm Int (· < ·) :=
    ⟨fun a b h1 h2 => absurd h2 (lt_asymm h1)⟩
  have hperm : p.2.Perm q.2 :=
    (List.perm_ext_iff_of_nodup hs1.nodup hs2.nodup).mpr hmem
  have heq : p.2 = q.2 := List.eq_of_perm_of_sorted hperm hs1 hs2
  rw [hck1 p hp, hck2 q hq, heq]

/-- C6 amended, witness: after a full flat run on the 3-node path the single
registry entry is keyed `(0, 1, 2)` with member set `{0, 1, 2}`; instantiating
the theorem at that concrete entry of two runs yields the identifier
equality. -/
theorem c6_flat_ids_witness :
    NodeId.flat [0, 1, 2] =
      ((NodeId.flat [0, 1, 2], ([0, 1, 2] : List Int)) :
        NodeId × List Int).1 :=
  c6_flat_ids_canonical pathGraph3 onesEig3 onesEig3 defaultTol defaultTol
    2 2 (fun _ => none) (fun _ => none) c3L c3L 2 2 (by decide) (by decide)
    (by decide)
    (NodeId.flat [0, 1, 2], ([0, 1, 2] : List Int)) (by decide)
    (NodeId.flat [0, 1, 2], ([0, 1, 2] : List Int)) (by decide)
    (fun _ => Iff.rfl)

/-! ## Claim C7 (confirmed) -/

/-- C7: after the partition is initialized as the identity mapping and after
every individual iteration of the merge loop (either entry point, any break
threshold, any checkpoint plan — states after `k` iterations are stated via
`List.take k`), the supernode member sets are pairwise disjoint, their union
is exactly the original node set, and every original node maps to the
supernode whose member set contains it. -/
theorem c7_partition_invariant (G : Graph) (oracle : Option EigSys) (tol : ℚ)
    (flat : Bool) (needed : Int) (ckpt : Int → Option ℚ)
    (tasks : List (ℚ × (NodeId × NodeId))) (k : ℕ)
    (hwf : wfInput G)
    (hp : prepTasks (sanitize G) oracle tol = some (.ok tasks)) :
    PartitionInv (origLabels (sanitize G))
      (runLoop flat needed ckpt (initState (sanitize G)) (List.take k tasks)) := by
  have hw := tasksWf_of_prepTasks hwf hp
  have hwk : TasksWf (origLabels (sanitize G)) (tasks.take k) :=
    fun t ht => hw t (List.mem_of_mem_take ht)
  have inv := regInv_runLoop flat needed ckpt (tasks.take k) hwk
    (regInv_initState (sanitize_nodes_nodup G) (sanitize_orig hwf)
      (sanitize_ewf G))
  exact ⟨inv.disj, inv.coverA, inv.coverB, inv.maps⟩

/-- C7, witness: one flat-naming iteration on the 3-node path. -/
theorem c7_partition_witness :
    PartitionInv (origLabels (sanitize pathGraph3))
      (runLoop true 1 (fun _ => none) (initState (sanitize pathGraph3))
        (List.take 1 c3L)) :=
  c7_partition_invariant pathGraph3 onesEig3 defaultTol true 1 (fun _ => none)
    c3L 1 (by decide) (by decide)

/-- C8 amended, witness. -/
theorem c8_validation_witness :
    coarsen pathGraph3 2 onesEig3 defaultTol = .error valueErrorMsg ∧
    coarsenWithCheckpoints pathGraph3 [] onesEig3 defaultTol = .ok [] ∧
    coarsenWithCheckpoints pathGraph3 [3/2] onesEig3 defaultTol ≠
      .error valueErrorMsg :=
  ⟨c8_validation_behavior.1 pathGraph3 2 onesEig3 defaultTol (by decide),
   c8_validation_behavior.2.1 pathGraph3 onesEig3 defaultTol,
   c8_validation_behavior.2.2 pathGraph3 [3/2] onesEig3 defaultTol⟩

/-- Claim C2 (corrected): the two entry points do not contract "the same node
pairs in the same order" into the same graph — the supernode identifiers
differ structurally (nested 2-tuples versus flat sorted tuples, see the
counterexample).  What does hold is that both runs perform the same merges up
to identifier naming: on any integer-labelled input, the graph recorded for a
single requested ratio by the checkpointed variant has exactly the same number
of nodes as the graph returned by plain `coarsen` at that ratio. -/
theorem c2_same_node_count (G : Graph) (alpha : ℚ) (oracle : Option EigSys)
    (tol : ℚ) (g1 : Graph) (m : List (ℚ × Graph)) (g2 : Graph)
    (hwf : wfInput G)
    (h1 : coarsen G alpha oracle tol = .ok g1)
    (h2 : coarsenWithCheckpoints G [alpha] oracle tol = .ok m)
    (h3 : resLookup m alpha = some g2) :
    g1.nodes.length = g2.nodes.length := by
  unfold coarsen coarsenOld at h1
  dsimp only at h1
  unfold coarsenWithCheckpoints at h2
  have hne : ([alpha] : List ℚ) ≠ [] := List.cons_ne_nil _ _
  by_cases hval : 0 < alpha ∧ alpha < 1
  · rw [if_neg (not_not_intro hval)] at h1
    cases hp : prepTasks (sanitize G) oracle tol with
    | none =>
      rw [ckpt_prep_none hne hp h2] at h3
      exact Option.noConfusion h3
    | some res =>
      cases res with
      | error msg => exact (ckpt_prep_error hne hp h2).elim
      | ok tasks =>
        have hg2 := ckpt_singleton_final hp h2 h3
        by_cases hsmall : (sanitize G).nodes.length < 2
        · rw [if_pos hsmall] at h1
          injection h1 with hg1
          rw [prepTasks_small hsmall hp] at hg2
          rw [← hg1, hg2]
          rfl
        · rw [if_neg hsmall, hp] at h1
          dsimp only at h1
          injection h1 with hg1
          have hnd := sanitize_nodes_nodup G
          have horig := sanitize_orig hwf
          have hewf := sanitize_ewf G
          have inv0 := regInv_initState hnd horig hewf
          have hw := tasksWf_of_prepTasks hwf hp
          have invE := regInv_runLoop false
            (((sanitize G).nodes.length : Int) -
              pyRound ((1 - alpha) * ((sanitize G).nodes.length : ℚ)))
            (fun _ => none) tasks hw inv0
          have invF := regInv_runLoop true
            (((sanitize G).nodes.length : Int) -
              pyRound ((1 - alpha) * ((sanitize G).nodes.length : ℚ)))
            (ckptLookup (sanitize G).nodes.length [alpha]) tasks hw inv0
          have hsim := sim_runLoop
            (((sanitize G).nodes.length : Int) -
              pyRound ((1 - alpha) * ((sanitize G).nodes.length : ℚ)))
            (fun _ => none) (ckptLookup (sanitize G).nodes.length [alpha])
            tasks hw inv0 inv0 ⟨rfl, rfl, rfl, fun _ _ => rfl⟩
          have key : (runLoop false
              (((sanitize G).nodes.length : Int) -
                pyRound ((1 - alpha) * ((sanitize G).nodes.length : ℚ)))
              (fun _ => none) (initState (sanitize G)) tasks).g.nodes.length =
              (runLoop true
              (((sanitize G).nodes.length : Int) -
                pyRound ((1 - alpha) * ((sanitize G).nodes.length : ℚ)))
              (ckptLookup (sanitize G).nodes.length [alpha])
              (initState (sanitize G)) tasks).g.nodes.length := by
            rw [nodes_length_eq_reg invE, nodes_length_eq_reg invF]
            exact hsim.2.2.1
          rw [← hg1, hg2]
          exact key
  · rw [if_pos hval] at h1
    exact Except.noConfusion h1

/-- C2 amended, witness: the 3-node path at ratio 2/3.  `coarsen` returns the
single nested supernode `((0, 1), 2)`; the checkpointed run records the single
flat supernode `(0, 1, 2)` for the ratio — different identifiers, equal node
counts. -/
theorem c2_same_node_count_witness :
    (⟨[.pair (.pair (.orig 0) (.orig 1)) (.orig 2)], []⟩ :
      Graph).nodes.length =
      (⟨[.flat [0, 1, 2]], []⟩ : Graph).nodes.length :=
  c2_same_node_count pathGraph3 (2/3) eig3A defaultTol
    ⟨[.pair (.pair (.orig 0) (.orig 1)) (.orig 2)], []⟩
    [(2/3, ⟨[.flat [0, 1, 2]], []⟩)] ⟨[.flat [0, 1, 2]], []⟩
    (by decide) (by decide) (by decide) (by decide)

end GraphRed
